import Mathlib

/-!
Verification of the skip-list engine in `SkipList.hpp` (template instantiated
at `Key = unsigned`, `Value = unsigned`, both modelled as `Nat`).

Layers are modelled as lists of real entries (key, value) in left-to-right
chain order; the left and right sentinels are implicit.  Both sentinels carry
the default-constructed key `Key()`, i.e. `0` for `unsigned`; reading the key
of a sentinel therefore yields `0` in the model, exactly as in the source.
A traversal position is an `Option Nat`: `none` is the left sentinel of the
current layer, `some x` is the node holding key `x`.  Following a `down`
pointer is modelled as re-locating the same key one layer below, which is
exact because towers are vertically contiguous and keys are unique per layer
(invariants proved below for all reachable states).
-/

namespace SkipListModel

/-- Deterministic coin flip for integer keys, from `flipCoin(unsigned, unsigned)`:
XOR the four bytes of the 32-bit key into a `char` `c`, then test bit
`previousFlips % 8` of `c` with the mask `1 << previousFlips`.  The `% 256`
models the narrowing store into `char c` (a no-op here since each extracted
byte is below 256, and the sign of `char` cannot affect the low-8-bit test). -/
def flipCoin (key previousFlips : Nat) : Bool :=
  let first8Bits : Nat := (key &&& 0xFF000000) / 0x01000000
  let next8Bits : Nat := (key &&& 0x00FF0000) / 0x00010000
  let andThen : Nat := (key &&& 0x0000FF00) / 0x00000100
  let lastBits : Nat := key &&& 0x000000FF
  let c : Nat := (first8Bits ^^^ next8Bits ^^^ andThen ^^^ lastBits) % 256
  let pf : Nat := previousFlips % 8
  (c &&& (1 <<< pf)) != 0

/-- Deterministic coin flip for string keys, from `flipCoin(std::string, unsigned)`:
`c = key[0]` then `c ^= key[j]` for the remaining characters, and the same bit
test.  Characters are modelled by their byte values (XOR on the two's
complement bit pattern of a `char` agrees with XOR on the byte value); for the
empty string `key[0]` reads the terminating null character, i.e. `0`. -/
def flipCoinStr (key : List Nat) (previousFlips : Nat) : Bool :=
  let c : Nat := (key.drop 1).foldl (fun a b => a ^^^ b) (key.headD 0)
  let pf : Nat := previousFlips % 8
  (c &&& (1 <<< pf)) != 0

/-- Reference promotion function written from the spec's words (§4.1): take the
bitwise pattern of the (32-bit unsigned) key, split it into 8-bit groups, XOR
all groups into a single byte `c`, and return bit `(priorPromotions mod 8)`
of `c`. -/
def promoteSpec (key priorPromotions : Nat) : Bool :=
  let b0 : Nat := key % 256
  let b1 : Nat := key / 256 % 256
  let b2 : Nat := key / 65536 % 256
  let b3 : Nat := key / 16777216 % 256
  (b3 ^^^ b2 ^^^ b1 ^^^ b0).testBit (priorPromotions % 8)

/-- Reference promotion function for sequence-like keys, from the spec's words
(§4.1): XOR every element of the key into a single byte and apply the same
bit test. -/
def promoteSpecStr (key : List Nat) (priorPromotions : Nat) : Bool :=
  (key.foldl (fun a b => a ^^^ b) 0).testBit (priorPromotions % 8)

theorem and_mask_eq (x a b : Nat) (h : a ≤ b) :
    x &&& ((2 ^ b - 1) ^^^ (2 ^ a - 1)) = x / 2 ^ a % 2 ^ (b - a) * 2 ^ a := by
  apply Nat.eq_of_testBit_eq
  intro i
  rw [Nat.testBit_and, Nat.testBit_xor, Nat.testBit_two_pow_sub_one,
    Nat.testBit_two_pow_sub_one, ← Nat.shiftLeft_eq, Nat.testBit_shiftLeft,
    Nat.testBit_mod_two_pow, ← Nat.shiftRight_eq_div_pow, Nat.testBit_shiftRight]
  by_cases hai : a ≤ i
  · have hIdx : a + (i - a) = i := by omega
    by_cases hib : i < b
    · simp [hai, hib, hIdx, show ¬i < a by omega, show i - a < b - a by omega]
    · simp [hai, hib, hIdx, show ¬i < a by omega, show ¬i - a < b - a by omega]
  · simp [hai, show i < a by omega, show i < b by omega]

theorem and_mask_div (x a b : Nat) (h : a ≤ b) :
    (x &&& ((2 ^ b - 1) ^^^ (2 ^ a - 1))) / 2 ^ a = x / 2 ^ a % 2 ^ (b - a) := by
  rw [and_mask_eq x a b h, Nat.mul_div_cancel]
  exact Nat.pos_pow_of_pos a (by omega)

theorem and_ff (x : Nat) : x &&& 0x000000FF = x % 256 := by
  have h := and_mask_eq x 0 8 (by omega)
  simpa using h

theorem flipCoin_eq_promoteSpec (key p : Nat) : flipCoin key p = promoteSpec key p := by
  have h3 : (key &&& 0xFF000000) / 0x01000000 = key / 16777216 % 256 := by
    have := and_mask_div key 24 32 (by omega)
    norm_num at this ⊢
    convert this using 2
  have h2 : (key &&& 0x00FF0000) / 0x00010000 = key / 65536 % 256 := by
    have := and_mask_div key 16 24 (by omega)
    norm_num at this ⊢
    convert this using 2
  have h1 : (key &&& 0x0000FF00) / 0x00000100 = key / 256 % 256 := by
    have := and_mask_div key 8 16 (by omega)
    norm_num at this ⊢
    convert this using 2
  have h0 : key &&& 0x000000FF = key % 256 := and_ff key
  have hlt : ∀ y : Nat, y % 256 < 256 := fun y => Nat.mod_lt _ (by omega)
  have hxlt : (key / 16777216 % 256 ^^^ key / 65536 % 256 ^^^ key / 256 % 256 ^^^ key % 256) < 256 := by
    have a1 := Nat.xor_lt_two_pow (n := 8) (hlt (key / 16777216)) (hlt (key / 65536))
    have a2 := Nat.xor_lt_two_pow (n := 8) a1 (hlt (key / 256))
    have a3 := Nat.xor_lt_two_pow (n := 8) a2 (hlt key)
    simpa using a3
  unfold flipCoin promoteSpec
  simp only [h3, h2, h1, h0, Nat.mod_eq_of_lt hxlt, Nat.one_shiftLeft, Nat.and_two_pow]
  cases hb : Nat.testBit (key / 16777216 % 256 ^^^ key / 65536 % 256 ^^^ key / 256 % 256 ^^^ key % 256) (p % 8) <;>
    simp [hb, Nat.pos_pow_of_pos]

theorem flipCoinStr_eq_promoteSpecStr (cs : List Nat) (p : Nat) :
    flipCoinStr cs p = promoteSpecStr cs p := by
  unfold flipCoinStr promoteSpecStr
  cases cs with
  | nil =>
    simp [Nat.one_shiftLeft, Nat.and_two_pow]
  | cons h t =>
    simp only [List.drop, List.headD, List.foldl, Nat.zero_xor, Nat.one_shiftLeft,
      Nat.and_two_pow]
    cases hb : Nat.testBit (t.foldl (fun a b => a ^^^ b) h) (p % 8) <;>
      simp [hb, Nat.pos_pow_of_pos]

/-! ## Data model

A layer is the list of its real entries; sentinels are implicit (their key is
the default `Key()`, i.e. `0`).  `layers` is ordered bottom-up: the head is
the base layer `S_0`, the last element is the topmost layer.  `layer_num` and
`max_layer_num` are the corresponding member variables of the class. -/

abbrev Entry : Type := Nat × Nat

def keysOf (L : List Entry) : List Nat := L.map Prod.fst

structure SkipState where
  layers : List (List Entry)
  listSize : Nat
  layer_num : Nat
  max_layer_num : Nat

/-- The constructor `SkipList()`: two empty layers (four sentinels), size 0,
`layer_num` incremented from 0 to 2, `max_layer_num = 13`. -/
def initState : SkipState := ⟨[[], []], 0, 2, 13⟩

def SkipState.base (s : SkipState) : List Entry := s.layers.headD []

/-- The layers in the top-down order in which every traversal visits them. -/
def SkipState.layersTD (s : SkipState) : List (List Entry) := s.layers.reverse

/-! ## Traversal positions

A position inside a layer is `none` (the left sentinel) or `some x` (the node
holding key `x`).  `afterKey L x` is the chain to the right of the node
holding `x`; `upToKey L x` the chain up to and including it.  Following a
`down` pointer from position `p` re-enters the lower layer at the node with
the same key (exact under the per-layer key uniqueness and vertical-continuity
invariants proved below). -/

def afterKey : List Entry → Nat → List Entry
  | [], _ => []
  | e :: rest, x => if e.1 = x then rest else afterKey rest x

def suffixAfter (L : List Entry) : Option Nat → List Entry
  | none => L
  | some x => afterKey L x

def upToKey : List Entry → Nat → List Entry
  | [], _ => []
  | e :: rest, x => if e.1 = x then [e] else e :: upToKey rest x

def prefixThrough (L : List Entry) : Option Nat → List Entry
  | none => []
  | some x => upToKey L x

/-- The key stored at a position; the left sentinel carries `Key() = 0`. -/
def curKeyD : Option Nat → Nat
  | none => 0
  | some x => x

/-- One layer of the strict search loop
`while (currentNode->next->next != nullptr && currentNode->next->key < k)
currentNode = currentNode->next;` starting at position `cur` whose remaining
chain (up to the right sentinel) is the first argument.  Returns the final
position and its remaining chain. -/
def walkLT (k : Nat) : List Entry → Option Nat → Option Nat × List Entry
  | [], cur => (cur, [])
  | e :: rest, cur => if e.1 < k then walkLT k rest (some e.1) else (cur, e :: rest)

/-- Result of one layer of the inclusive (`<=`) search loop: either the node
with key `k` was found (`found e cur`, with `cur` the position just before
it), or the walk fell off (`fell cur rest`). -/
inductive WalkHit where
  | found (e : Entry) (cur : Option Nat)
  | fell (cur : Option Nat) (rest : List Entry)

/-- One layer of the inclusive search loop
`while (currentNode->next->next != nullptr && currentNode->next->key <= k)`
with the in-loop check `if (currentNode->next->key == k)`. -/
def walkLE (k : Nat) : List Entry → Option Nat → WalkHit
  | [], cur => .fell cur []
  | e :: rest, cur =>
    if e.1 ≤ k then
      if e.1 = k then .found e cur
      else walkLE k rest (some e.1)
    else .fell cur (e :: rest)

/-- Top-down strict descent over the non-base layers (the `for` loop of
`previousKey` and `insert` restricted to `i != 0`, following `down` between
layers).  Returns the position at which the walk enters the base layer. -/
def descendUpper (k : Nat) : List (List Entry) → Option Nat → Option Nat
  | [], cur => cur
  | L :: below, cur => descendUpper k below (walkLT k (suffixAfter L cur) cur).1

/-- Result of the full top-down inclusive scan: `found i e cur` means the node
`e` with key `k` was found on the layer with bottom-up index `i` (the `i` of
the source's `for` loop), with `cur` the position just before it; `missing`
carries the final base-layer position and its remaining chain. -/
inductive ScanResult where
  | found (i : Nat) (e : Entry) (cur : Option Nat)
  | missing (cur : Option Nat) (rest : List Entry)

/-- The full top-down inclusive scan shared by `height`, `find`, `nextKey`,
`isSmallestKey` and `isLargestKey`: at each layer run the inclusive walk,
break on an exact match, otherwise follow `down` (except at the base). -/
def scanLE (k : Nat) : List (List Entry) → Option Nat → ScanResult
  | [], cur => .missing cur []
  | L :: below, cur =>
    match walkLE k (suffixAfter L cur) cur with
    | .found e c => .found below.length e c
    | .fell c r =>
      match below with
      | [] => .missing c r
      | _ :: _ => scanLE k below c

/-! ## Operations -/

/-- The three failure messages of the `RuntimeException`s thrown by the
engine: key absent, key is the largest (no successor), key is the smallest
(no predecessor). -/
inductive Err where
  | KeyNotFound
  | NoSuccessor
  | NoPredecessor
deriving DecidableEq, Repr

instance {ε α : Type} [DecidableEq ε] [DecidableEq α] : DecidableEq (Except ε α) :=
  fun x y =>
    match x, y with
    | .ok a, .ok b =>
      if h : a = b then .isTrue (by rw [h]) else .isFalse (fun hh => h (by injection hh))
    | .error a, .error b =>
      if h : a = b then .isTrue (by rw [h]) else .isFalse (fun hh => h (by injection hh))
    | .ok _, .error _ => .isFalse (fun hh => by injection hh)
    | .error _, .ok _ => .isFalse (fun hh => by injection hh)

def sizeImpl (s : SkipState) : Nat := s.listSize

def isEmptyImpl (s : SkipState) : Bool := s.listSize == 0

def numLayersImpl (s : SkipState) : Nat := s.layer_num

/-- `allKeysInOrder`: descend the left sentinels to the base layer, then
collect every real key left to right. -/
def allKeysInOrderImpl (s : SkipState) : List Nat := keysOf s.base

/-- `find`: inclusive scan; on a match return the value stored in the matched
node, otherwise throw "The key does not exist in the skip list." -/
def findImpl (s : SkipState) (k : Nat) : Except Err Nat :=
  match scanLE k s.layersTD none with
  | .found _ e _ => .ok e.2
  | .missing _ _ => .error .KeyNotFound

/-- `height`: inclusive scan recording `height = i + 1` at the first (= topmost)
layer whose walk matches `k`; throw if the scan never matches. -/
def heightImpl (s : SkipState) (k : Nat) : Except Err Nat :=
  match scanLE k s.layersTD none with
  | .found i _ _ => .ok (i + 1)
  | .missing _ _ => .error .KeyNotFound

/-- `nextKey`: inclusive scan.  On a match the source steps onto the matched
node, follows `down` to the base layer and returns `currentNode->next->key` —
which is the right sentinel's key `Key() = 0` when `k` is the largest key.
Without a match it reports `KeyNotFound` unless the final position's key
equals `k` (which, keys being absent, only the sentinel key `0` can achieve),
and then "largest key" when the successor is the right sentinel. -/
def nextKeyImpl (s : SkipState) (k : Nat) : Except Err Nat :=
  match scanLE k s.layersTD none with
  | .found _ _ _ =>
    match afterKey s.base k with
    | [] => .ok 0
    | e :: _ => .ok e.1
  | .missing cur rest =>
    if curKeyD cur ≠ k then .error .KeyNotFound
    else
      match rest with
      | [] => .error .NoSuccessor
      | e :: _ => .ok e.1

/-- `previousKey`: strict descent through every layer; afterwards
`KeyNotFound` unless the successor's key equals `k`, then the dead guard
`currentNode == top_left && currentNode->down == nullptr` (the final position
lies on the base layer, which is distinct from the top layer whenever
`layer_num ≥ 2`, so the guard can only fire if no descent happened at all and
the walk never advanced), and finally `currentNode->key` — the left
sentinel's `Key() = 0` when `k` is the smallest key. -/
def previousKeyImpl (s : SkipState) (k : Nat) : Except Err Nat :=
  match s.layers with
  | [] => .error .KeyNotFound
  | B :: rest =>
    let curIn := descendUpper k rest.reverse none
    let p := walkLT k (suffixAfter B curIn) curIn
    if (match p.2 with | [] => 0 | e :: _ => e.1) ≠ k then .error .KeyNotFound
    else if s.layer_num ≤ 1 ∧ p.1 = none then .error .NoPredecessor
    else .ok (curKeyD p.1)

/-- `isSmallestKey`: inclusive scan to establish existence, then compare `k`
with `bot_left->next->key` (the first base entry, or the right sentinel's
`0` on an empty base layer). -/
def isSmallestKeyImpl (s : SkipState) (k : Nat) : Except Err Bool :=
  match scanLE k s.layersTD none with
  | .missing _ _ => .error .KeyNotFound
  | .found _ _ _ =>
    .ok (decide ((match s.base with | [] => 0 | e :: _ => e.1) = k))

/-- `isLargestKey`: inclusive scan to establish existence, breaking with
`currentNode` at the position just before the match; then follow `down` to
the base layer and walk right to the last real node, comparing its key with
`k`. -/
def isLargestKeyImpl (s : SkipState) (k : Nat) : Except Err Bool :=
  match scanLE k s.layersTD none with
  | .missing _ _ => .error .KeyNotFound
  | .found _ _ c =>
    let lastK := match (suffixAfter s.base c).getLast? with
      | some e => e.1
      | none => curKeyD c
    .ok (decide (lastK = k))

/-- Splicing a new node for `(k, v)` into a layer right after the last node
whose key is `< k` (the walk starts at the layer's left sentinel). -/
def spliceLT (L : List Entry) (k v : Nat) : List Entry :=
  L.takeWhile (fun e => e.1 < k) ++ (k, v) :: L.dropWhile (fun e => e.1 < k)

/-- The cap recomputation inside `insert`:
`if (listSize > 16) max_layer_num = 3 * ceil(log2(listSize)) + 1;` evaluated
for the incremented size. -/
def capAfter (s : SkipState) : Nat :=
  if s.listSize + 1 > 16 then 3 * Nat.clog 2 (s.listSize + 1) + 1
  else s.max_layer_num

/-- The promotion loop of `insert`, acting on the bottom-up list of layers
above the base (`ls`), with `pf = previousFlip` before its increment and `ln`
the current `layer_num`.  Each iteration splices `(k, v)` into the next layer
up; if that layer was the topmost one (`layer_num - 1 == previousFlip`, i.e.
`ln = pf + 2`) a brand-new empty layer is created above it and `layer_num`
incremented.  The loop runs while `flipCoin(k, previousFlip)` holds and
`layer_num < max_layer_num`; the fuel argument is only a termination bound
(instantiated with `mx`, which the guard `ln < mx` together with the
structural bound `pf + 2 ≤ ln` makes sufficient). -/
def promoLoop (k v mx : Nat) : Nat → Nat → Nat → List (List Entry) → List (List Entry) × Nat
  | 0, _, ln, ls => (ls, ln)
  | fuel + 1, pf, ln, ls =>
    if flipCoin k pf ∧ ln < mx then
      match ls with
      -- in the source this would dereference a null pointer; it cannot occur,
      -- since the loop guard keeps pf + 2 ≤ ln = 1 + (number of layers above the base)
      | [] => ([], ln)
      | L :: above =>
        let L' := spliceLT L k v
        if ln = pf + 2 then
          -- the new empty layer goes directly above the spliced layer, which is
          -- the topmost one here (its bottom-up index pf + 1 equals ln - 1, so
          -- `above` is empty in every well-formed state)
          let p := promoLoop k v mx fuel (pf + 1) (ln + 1) ([] :: above)
          (L' :: p.1, p.2)
        else
          let p := promoLoop k v mx fuel (pf + 1) ln above
          (L' :: p.1, p.2)
    else (ls, ln)

/-- The number of iterations the promotion loop performs: the count of
consecutive `true` coin flips starting at flip 0, truncated by the guard
`layer_num < max_layer_num` with `layer_num` evolving exactly as in the
loop. -/
def promoSteps (k mx : Nat) : Nat → Nat → Nat → Nat
  | 0, _, _ => 0
  | fuel + 1, pf, ln =>
    if flipCoin k pf ∧ ln < mx then
      promoSteps k mx fuel (pf + 1) (if ln = pf + 2 then ln + 1 else ln) + 1
    else 0

/-- `insert`: strict descent to the base position; reject a duplicate
(successor is a real node with key `k`) with no mutation; otherwise splice at
the base, increment the size, recompute the cap, and run the promotion
loop. -/
def insertImpl (s : SkipState) (k v : Nat) : Bool × SkipState :=
  match s.layers with
  | [] => (false, s)
  | B :: rest =>
    let curIn := descendUpper k rest.reverse none
    let suffix := suffixAfter B curIn
    let passed := suffix.takeWhile (fun e => e.1 < k)
    let r := suffix.dropWhile (fun e => e.1 < k)
    let dup : Bool := match r with | e :: _ => decide (e.1 = k) | [] => false
    if dup then (false, s)
    else
      let B' := prefixThrough B curIn ++ passed ++ (k, v) :: r
      let mx' := capAfter s
      let p := promoLoop k v mx' mx' 0 s.layer_num rest
      (true, ⟨B' :: p.1, s.listSize + 1, p.2, mx'⟩)

/-- States reachable from a freshly constructed engine by `insert` calls (the
read queries do not mutate the structure). -/
inductive Reachable : SkipState → Prop where
  | init : Reachable initState
  | step (s : SkipState) (k v : Nat) : Reachable s → Reachable (insertImpl s k v).2

/-- `InsertsFrom s t`: `t` results from `s` by some further sequence of
`insert` calls. -/
inductive InsertsFrom : SkipState → SkipState → Prop where
  | refl (s : SkipState) : InsertsFrom s s
  | step (s t : SkipState) (k v : Nat) : InsertsFrom s t → InsertsFrom s (insertImpl t k v).2

/-! ## Structural invariants of reachable states -/

/-- A layer chain is strictly increasing by key between its sentinels. -/
def SortedK (L : List Entry) : Prop := L.Pairwise (fun a b => a.1 < b.1)

/-- The number of layers (bottom-up) whose chain contains key `k` — the height
of the tower of `k`. -/
def cntK (k : Nat) (LS : List (List Entry)) : Nat :=
  LS.countP (fun L => decide (k ∈ keysOf L))

/-- Well-formedness of the linked structure, named after the corresponding
facts about the pointer graph: layer count agrees with `layer_num`
(which is at least 2), every layer is sorted with distinct keys, every
layer's entries also appear one layer below (vertical continuity of towers,
which also justifies reading a `down` edge as same-key relocation), the
topmost layer is empty, and `listSize` counts the base entries. -/
structure Inv (s : SkipState) : Prop where
  len_eq : s.layers.length = s.layer_num
  two_le : 2 ≤ s.layer_num
  sorted : ∀ L ∈ s.layers, SortedK L
  sub : s.layers.Chain' (fun lower upper => upper ⊆ lower)
  top : s.layers.getLast? = some []
  size_eq : s.listSize = (s.layers.headD []).length

/-- Validity of a resumption position for layer `B`: the left sentinel, or a
node whose key is `< k` and present in `B`. -/
def curOK (k : Nat) (B : List Entry) : Option Nat → Prop
  | none => True
  | some x => x < k ∧ x ∈ keysOf B

theorem mem_keysOf {k : Nat} {L : List Entry} : k ∈ keysOf L ↔ ∃ v, (k, v) ∈ L := by
  constructor
  · intro h
    obtain ⟨e, he, hk⟩ := List.mem_map.mp h
    exact ⟨e.2, by simpa [← hk] using he⟩
  · rintro ⟨v, hv⟩
    exact List.mem_map.mpr ⟨(k, v), hv, rfl⟩

theorem keysOf_mono {L M : List Entry} (h : L ⊆ M) : keysOf L ⊆ keysOf M :=
  fun _ hx => by
    obtain ⟨v, hv⟩ := mem_keysOf.mp hx
    exact mem_keysOf.mpr ⟨v, h hv⟩

theorem afterKey_sublist (L : List Entry) (x : Nat) : (afterKey L x).Sublist L := by
  induction L with
  | nil => simp [afterKey]
  | cons e rest ih =>
    by_cases h : e.1 = x
    · simp [afterKey, h]
    · simpa [afterKey, h] using List.Sublist.cons e ih

theorem suffixAfter_subset (L : List Entry) (cur : Option Nat) : suffixAfter L cur ⊆ L := by
  cases cur with
  | none => exact fun _ h => h
  | some x => exact List.Sublist.subset (afterKey_sublist L x)

/-! ### The strict walk -/

theorem walkLT_snd (k : Nat) (L : List Entry) (cur : Option Nat) :
    (walkLT k L cur).2 = L.dropWhile (fun e => e.1 < k) := by
  induction L generalizing cur with
  | nil => rfl
  | cons e rest ih =>
    by_cases h : e.1 < k <;> simp [walkLT, h, List.dropWhile_cons, ih]

theorem walkLT_fst (k : Nat) (L : List Entry) (cur : Option Nat) :
    (walkLT k L cur).1 = cur ∨
      ∃ x, (walkLT k L cur).1 = some x ∧ x < k ∧ x ∈ keysOf L := by
  induction L generalizing cur with
  | nil => exact Or.inl rfl
  | cons e rest ih =>
    by_cases h : e.1 < k
    · rcases ih (some e.1) with h1 | ⟨x, h1, h2, h3⟩
      · refine Or.inr ⟨e.1, ?_, h, ?_⟩
        · simpa [walkLT, h] using h1
        · simp [keysOf]
      · refine Or.inr ⟨x, ?_, h2, ?_⟩
        · simpa [walkLT, h] using h1
        · simp only [keysOf, List.map_cons, List.mem_cons]
          exact Or.inr h3
    · exact Or.inl (by simp [walkLT, h])

theorem walkLT_head_lt {k : Nat} {f : Entry} {t : List Entry} (h : f.1 < k)
    (c1 c2 : Option Nat) : walkLT k (f :: t) c1 = walkLT k (f :: t) c2 := by
  simp [walkLT, h]

theorem sorted_head_le {f : Entry} {t : List Entry} (hs : SortedK (f :: t)) {x : Nat}
    (hx : x ∈ keysOf t) : f.1 < x := by
  obtain ⟨v, hv⟩ := mem_keysOf.mp hx
  exact (List.pairwise_cons.mp hs).1 (x, v) hv

theorem walkLT_transfer {k x : Nat} {L : List Entry} (hs : SortedK L)
    (hx : x ∈ keysOf L) (hlt : x < k) :
    walkLT k (afterKey L x) (some x) = walkLT k L none := by
  induction L with
  | nil => simp [keysOf] at hx
  | cons e rest ih =>
    by_cases he : e.1 = x
    · have hek : e.1 < k := he ▸ hlt
      simp only [afterKey, he, if_pos rfl]
      simp [walkLT, hek, he, hlt]
    · have hxr : x ∈ keysOf rest := by
        simp only [keysOf, List.map_cons, List.mem_cons] at hx
        tauto
      have hex : e.1 < x := sorted_head_le hs hxr
      have hek : e.1 < k := lt_trans hex hlt
      have hrest : walkLT k (afterKey rest x) (some x) = walkLT k rest none :=
        ih (List.pairwise_cons.mp hs).2 hxr
      cases rest with
      | nil => simp [keysOf] at hxr
      | cons f t =>
        have hfx : f.1 ≤ x := by
          rcases mem_keysOf.mp hxr with ⟨v, hv⟩
          rcases List.mem_cons.mp hv with h1 | h1
          · simp [← h1]
          · exact le_of_lt (sorted_head_le (List.pairwise_cons.mp hs).2 (mem_keysOf.mpr ⟨v, h1⟩))
        have hfk : f.1 < k := lt_of_le_of_lt hfx hlt
        calc walkLT k (afterKey (e :: f :: t) x) (some x)
            = walkLT k (afterKey (f :: t) x) (some x) := by simp [afterKey, he]
          _ = walkLT k (f :: t) none := hrest
          _ = walkLT k (f :: t) (some e.1) := walkLT_head_lt hfk none (some e.1)
          _ = walkLT k (e :: f :: t) none := by simp [walkLT, hek]

theorem walkLT_from {k : Nat} {B : List Entry} {cur : Option Nat} (hs : SortedK B)
    (hc : curOK k B cur) : walkLT k (suffixAfter B cur) cur = walkLT k B none := by
  cases cur with
  | none => rfl
  | some x => exact walkLT_transfer hs hc.2 hc.1

/-! ### The inclusive walk -/

theorem walkLE_not_mem {k : Nat} {L : List Entry} {cur : Option Nat}
    (h : k ∉ keysOf L) :
    walkLE k L cur = .fell (walkLT k L cur).1 (walkLT k L cur).2 := by
  induction L generalizing cur with
  | nil => rfl
  | cons e rest ih =>
    have hek : e.1 ≠ k := fun hk => h (by simp [keysOf, hk])
    have hr : k ∉ keysOf rest := fun hk => h (by simp [keysOf] at hk ⊢; tauto)
    by_cases hlt : e.1 < k
    · have hle : e.1 ≤ k := le_of_lt hlt
      simp [walkLE, walkLT, hle, hlt, hek, ih hr]
    · have hle : ¬e.1 ≤ k := by omega
      simp [walkLE, walkLT, hle, hlt]

theorem walkLE_mem {k : Nat} {L : List Entry} (cur : Option Nat) (hs : SortedK L)
    (h : k ∈ keysOf L) :
    ∃ v c, walkLE k L cur = .found (k, v) c ∧ (k, v) ∈ L ∧
      (c = cur ∨ ∃ x, c = some x ∧ x < k ∧ x ∈ keysOf L) := by
  induction L generalizing cur with
  | nil => simp [keysOf] at h
  | cons e rest ih =>
    obtain ⟨ek, ev⟩ := e
    by_cases he : ek = k
    · subst he
      exact ⟨ev, cur, by simp [walkLE], by simp, Or.inl rfl⟩
    · have hxr : k ∈ keysOf rest := by
        simp only [keysOf, List.map_cons, List.mem_cons] at h
        tauto
      have hek : ek < k := sorted_head_le hs hxr
      obtain ⟨v, c, hw, hmem, hc⟩ := ih (some ek) (List.pairwise_cons.mp hs).2 hxr
      refine ⟨v, c, ?_, List.mem_cons_of_mem (ek, ev) hmem, ?_⟩
      · simp [walkLE, le_of_lt hek, he, hw]
      · rcases hc with h1 | ⟨x, h1, h2, h3⟩
        · exact Or.inr ⟨ek, h1, hek, by simp [keysOf]⟩
        · exact Or.inr ⟨x, h1, h2, by simp only [keysOf, List.map_cons, List.mem_cons]; tauto⟩

theorem walkLE_transfer {k x : Nat} {L : List Entry} (hs : SortedK L)
    (hx : x ∈ keysOf L) (hlt : x < k) :
    walkLE k (afterKey L x) (some x) = walkLE k L none := by
  induction L with
  | nil => simp [keysOf] at hx
  | cons e rest ih =>
    by_cases he : e.1 = x
    · have hek : e.1 < k := he ▸ hlt
      have hne : e.1 ≠ k := Nat.ne_of_lt hek
      simp only [afterKey, he, if_pos rfl]
      simp [walkLE, le_of_lt hek, hne, he, le_of_lt hlt, Nat.ne_of_lt hlt]
    · have hxr : x ∈ keysOf rest := by
        simp only [keysOf, List.map_cons, List.mem_cons] at hx
        tauto
      have hex : e.1 < x := sorted_head_le hs hxr
      have hek : e.1 < k := lt_trans hex hlt
      have hene : e.1 ≠ k := Nat.ne_of_lt hek
      have hrest : walkLE k (afterKey rest x) (some x) = walkLE k rest none :=
        ih (List.pairwise_cons.mp hs).2 hxr
      cases rest with
      | nil => simp [keysOf] at hxr
      | cons f t =>
        have hfx : f.1 ≤ x := by
          rcases mem_keysOf.mp hxr with ⟨v, hv⟩
          rcases List.mem_cons.mp hv with h1 | h1
          · simp [← h1]
          · exact le_of_lt (sorted_head_le (List.pairwise_cons.mp hs).2 (mem_keysOf.mpr ⟨v, h1⟩))
        have hfk : f.1 < k := lt_of_le_of_lt hfx hlt
        have hfne : f.1 ≠ k := Nat.ne_of_lt hfk
        have hstep : ∀ c1 c2 : Option Nat, walkLE k (f :: t) c1 = walkLE k (f :: t) c2 := by
          intro c1 c2
          simp [walkLE, le_of_lt hfk, hfne]
        calc walkLE k (afterKey (e :: f :: t) x) (some x)
            = walkLE k (afterKey (f :: t) x) (some x) := by simp [afterKey, he]
          _ = walkLE k (f :: t) none := hrest
          _ = walkLE k (f :: t) (some e.1) := hstep none (some e.1)
          _ = walkLE k (e :: f :: t) none := by simp [walkLE, le_of_lt hek, hene]

theorem walkLE_from {k : Nat} {B : List Entry} {cur : Option Nat} (hs : SortedK B)
    (hc : curOK k B cur) : walkLE k (suffixAfter B cur) cur = walkLE k B none := by
  cases cur with
  | none => rfl
  | some x => exact walkLE_transfer hs hc.2 hc.1

/-! ### Chains of layers -/

theorem chain_sub_getLastD (LS : List (List Entry)) (h : LS.Chain' (· ⊆ ·)) :
    ∀ L ∈ LS, L ⊆ LS.getLastD [] := by
  induction LS with
  | nil => simp
  | cons X rest ih =>
    cases rest with
    | nil =>
      intro L hL
      rcases List.mem_cons.mp hL with rfl | hL2
      · intro a ha; simpa using ha
      · simp at hL2
    | cons Y t =>
      obtain ⟨hXY, hchain⟩ := List.chain'_cons.mp h
      intro L hL
      rw [List.getLastD_cons, show (Y :: t).getLastD X = (Y :: t).getLastD [] from by
        rw [List.getLastD_cons, List.getLastD_cons]]
      rcases List.mem_cons.mp hL with rfl | hL2
      · exact List.Subset.trans hXY (ih hchain Y (by simp))
      · exact ih hchain L hL2

theorem chain_mem_from (X : List Entry) (ls : List (List Entry))
    (h : (X :: ls).Chain' (· ⊆ ·)) {e : Entry} (he : e ∈ X) : ∀ M ∈ ls, e ∈ M := by
  induction ls generalizing X with
  | nil => simp
  | cons Y t ih =>
    obtain ⟨hXY, hchain⟩ := List.chain'_cons.mp h
    intro M hM
    rcases List.mem_cons.mp hM with rfl | hM2
    · exact hXY he
    · exact ih Y hchain (hXY he) M hM2

theorem chain_sub_head (B : List Entry) (rest : List (List Entry))
    (h : (B :: rest).Chain' (fun lower upper => upper ⊆ lower)) :
    ∀ M ∈ rest, M ⊆ B := by
  induction rest generalizing B with
  | nil => simp
  | cons Y t ih =>
    obtain ⟨hBY, hchain⟩ := List.chain'_cons.mp h
    intro M hM
    rcases List.mem_cons.mp hM with rfl | hM2
    · exact hBY
    · exact List.Subset.trans (ih Y hchain M hM2) hBY

/-! ### The strict descent -/

theorem descendUpper_ok (k : Nat) :
    ∀ (TDs : List (List Entry)) (B : List Entry) (cur : Option Nat),
      (TDs ++ [B]).Chain' (· ⊆ ·) →
      (∀ L ∈ TDs ++ [B], SortedK L) →
      curOK k ((TDs ++ [B]).headD []) cur →
      curOK k B (descendUpper k TDs cur) := by
  intro TDs
  induction TDs with
  | nil =>
    intro B cur _ _ hcur
    simpa using hcur
  | cons L TDs2 ih =>
    intro B cur hchain hsorted hcur
    have hsL : SortedK L := hsorted L (by simp)
    have hcurL : curOK k L cur := by simpa using hcur
    have hwalk : walkLT k (suffixAfter L cur) cur = walkLT k L none := walkLT_from hsL hcurL
    have hchain2 : (TDs2 ++ [B]).Chain' (· ⊆ ·) :=
      (List.chain'_cons'.mp (by simpa using hchain)).2
    have hLhead : L ⊆ (TDs2 ++ [B]).headD [] := by
      have hrel := (List.chain'_cons'.mp (by simpa using hchain)).1
      cases TDs2 with
      | nil => simpa using hrel
      | cons M t => simpa using hrel
    have hnextOK : curOK k ((TDs2 ++ [B]).headD []) (walkLT k L none).1 := by
      rcases walkLT_fst k L none with h1 | ⟨x, h1, h2, h3⟩
      · rw [h1]; trivial
      · rw [h1]
        exact ⟨h2, keysOf_mono hLhead h3⟩
    have hstep : descendUpper k (L :: TDs2) cur = descendUpper k TDs2 (walkLT k L none).1 := by
      simp [descendUpper, hwalk]
    rw [hstep]
    exact ih B (walkLT k L none).1 hchain2 (fun M hM => hsorted M (by simp [hM])) hnextOK

/-! ### The inclusive scan -/

theorem scanLE_cons_cons (k : Nat) (L b0 : List Entry) (bs : List (List Entry))
    (cur : Option Nat) :
    scanLE k (L :: b0 :: bs) cur =
      match walkLE k (suffixAfter L cur) cur with
      | .found e c => .found (b0 :: bs).length e c
      | .fell c _ => scanLE k (b0 :: bs) c := by
  cases hW : walkLE k (suffixAfter L cur) cur with
  | found e c => simp [scanLE, hW]
  | fell c r => simp [scanLE, hW]

theorem scanLE_single (k : Nat) (B : List Entry) (cur : Option Nat) :
    scanLE k [B] cur =
      match walkLE k (suffixAfter B cur) cur with
      | .found e c => .found 0 e c
      | .fell c r => .missing c r := by
  cases hW : walkLE k (suffixAfter B cur) cur with
  | found e c => simp [scanLE, hW]
  | fell c r => simp [scanLE, hW]

theorem scan_missing (k : Nat) :
    ∀ (TDs : List (List Entry)) (B : List Entry) (cur : Option Nat),
      (TDs ++ [B]).Chain' (· ⊆ ·) →
      (∀ L ∈ TDs ++ [B], SortedK L) →
      curOK k ((TDs ++ [B]).headD []) cur →
      k ∉ keysOf B →
      scanLE k (TDs ++ [B]) cur = .missing (walkLT k B none).1 (walkLT k B none).2 := by
  intro TDs
  induction TDs with
  | nil =>
    intro B cur _ hsorted hcur hmem
    have hsB : SortedK B := hsorted B (by simp)
    have hcurB : curOK k B cur := by simpa using hcur
    rw [List.nil_append, scanLE_single, walkLE_from hsB hcurB, walkLE_not_mem hmem]
  | cons L TDs2 ih =>
    intro B cur hchain hsorted hcur hmem
    have hsL : SortedK L := hsorted L (by simp)
    have hcurL : curOK k L cur := by simpa using hcur
    have hchain2 : (TDs2 ++ [B]).Chain' (· ⊆ ·) :=
      (List.chain'_cons'.mp (by simpa using hchain)).2
    have hLB : L ⊆ B := by
      have h := chain_sub_getLastD ((L :: TDs2) ++ [B]) (by simpa using hchain) L (by simp)
      rwa [List.getLastD_concat] at h
    have hmemL : k ∉ keysOf L := fun hk => hmem (keysOf_mono hLB hk)
    have hLhead : L ⊆ (TDs2 ++ [B]).headD [] := by
      have hrel := (List.chain'_cons'.mp (by simpa using hchain)).1
      cases TDs2 with
      | nil => simpa using hrel
      | cons M t => simpa using hrel
    have hnextOK : curOK k ((TDs2 ++ [B]).headD []) (walkLT k L none).1 := by
      rcases walkLT_fst k L none with h1 | ⟨x, h1, h2, h3⟩
      · rw [h1]; trivial
      · rw [h1]
        exact ⟨h2, keysOf_mono hLhead h3⟩
    have hwalk : walkLE k (suffixAfter L cur) cur = .fell (walkLT k L none).1 (walkLT k L none).2 := by
      rw [walkLE_from hsL hcurL, walkLE_not_mem hmemL]
    obtain ⟨b0, bs, hTB⟩ : ∃ b0 bs, TDs2 ++ [B] = b0 :: bs := by
      cases h : TDs2 ++ [B] with
      | nil => exact absurd h (by simp)
      | cons b0 bs => exact ⟨b0, bs, rfl⟩
    rw [List.cons_append, hTB, scanLE_cons_cons, ← hTB, hwalk]
    exact ih B (walkLT k L none).1 hchain2 (fun M hM => hsorted M (by simp [hM])) hnextOK hmem

theorem scan_found (k : Nat) :
    ∀ (TDs : List (List Entry)) (B : List Entry) (cur : Option Nat),
      (TDs ++ [B]).Chain' (· ⊆ ·) →
      (∀ L ∈ TDs ++ [B], SortedK L) →
      curOK k ((TDs ++ [B]).headD []) cur →
      k ∈ keysOf B →
      ∃ v c, scanLE k (TDs ++ [B]) cur = .found (cntK k (TDs ++ [B]) - 1) (k, v) c ∧
        (k, v) ∈ B ∧ curOK k B c := by
  intro TDs
  induction TDs with
  | nil =>
    intro B cur _ hsorted hcur hmem
    have hsB : SortedK B := hsorted B (by simp)
    have hcurB : curOK k B cur := by simpa using hcur
    obtain ⟨v, c, hw, hv, hc⟩ := walkLE_mem none hsB hmem
    refine ⟨v, c, ?_, hv, ?_⟩
    · rw [List.nil_append, scanLE_single, walkLE_from hsB hcurB, hw]
      simp [cntK, hmem]
    · rcases hc with rfl | ⟨x, h1, h2, h3⟩
      · trivial
      · rw [h1]; exact ⟨h2, h3⟩
  | cons L TDs2 ih =>
    intro B cur hchain hsorted hcur hmem
    have hsL : SortedK L := hsorted L (by simp)
    have hcurL : curOK k L cur := by simpa using hcur
    have hchain2 : (TDs2 ++ [B]).Chain' (· ⊆ ·) :=
      (List.chain'_cons'.mp (by simpa using hchain)).2
    have hchainL : (L :: (TDs2 ++ [B])).Chain' (· ⊆ ·) := by simpa using hchain
    have hLB : L ⊆ B := by
      have h := chain_sub_getLastD ((L :: TDs2) ++ [B]) (by simpa using hchain) L (by simp)
      rwa [List.getLastD_concat] at h
    obtain ⟨b0, bs, hTB⟩ : ∃ b0 bs, TDs2 ++ [B] = b0 :: bs := by
      cases h : TDs2 ++ [B] with
      | nil => exact absurd h (by simp)
      | cons b0 bs => exact ⟨b0, bs, rfl⟩
    by_cases hkL : k ∈ keysOf L
    · obtain ⟨v, c, hw, hv, hc⟩ := walkLE_mem none hsL hkL
      obtain ⟨w, hvw⟩ := mem_keysOf.mp hkL
      have hall : ∀ M ∈ TDs2 ++ [B], (k, w) ∈ M := chain_mem_from L _ hchainL hvw
      have hcnt : cntK k (L :: (TDs2 ++ [B])) = (TDs2 ++ [B]).length + 1 := by
        have h1 : cntK k (TDs2 ++ [B]) = (TDs2 ++ [B]).length :=
          List.countP_eq_length.mpr fun M hM =>
            decide_eq_true (mem_keysOf.mpr ⟨w, hall M hM⟩)
        have h2 := List.countP_cons_of_pos (p := fun M => decide (k ∈ keysOf M))
          (a := L) (TDs2 ++ [B]) (by simpa using hkL)
        simp only [cntK] at h1 ⊢
        rw [h2, h1]
      refine ⟨v, c, ?_, hLB hv, ?_⟩
      · rw [List.cons_append, hTB, scanLE_cons_cons, ← hTB, walkLE_from hsL hcurL, hw]
        show ScanResult.found (TDs2 ++ [B]).length (k, v) c = _
        rw [hcnt]
        simp
      · rcases hc with rfl | ⟨x, h1, h2, h3⟩
        · trivial
        · rw [h1]; exact ⟨h2, keysOf_mono hLB h3⟩
    · have hLhead : L ⊆ (TDs2 ++ [B]).headD [] := by
        have hrel := (List.chain'_cons'.mp (by simpa using hchain)).1
        cases TDs2 with
        | nil => simpa using hrel
        | cons M t => simpa using hrel
      have hnextOK : curOK k ((TDs2 ++ [B]).headD []) (walkLT k L none).1 := by
        rcases walkLT_fst k L none with h1 | ⟨x, h1, h2, h3⟩
        · rw [h1]; trivial
        · rw [h1]
          exact ⟨h2, keysOf_mono hLhead h3⟩
      have hwalk : walkLE k (suffixAfter L cur) cur =
          .fell (walkLT k L none).1 (walkLT k L none).2 := by
        rw [walkLE_from hsL hcurL, walkLE_not_mem hkL]
      obtain ⟨v, c, hrec, hv, hc⟩ :=
        ih B (walkLT k L none).1 hchain2 (fun M hM => hsorted M (by simp [hM])) hnextOK hmem
      refine ⟨v, c, ?_, hv, hc⟩
      have hcnt : cntK k (L :: (TDs2 ++ [B])) = cntK k (TDs2 ++ [B]) := by
        have h2 := List.countP_cons_of_neg (p := fun M => decide (k ∈ keysOf M))
          (a := L) (TDs2 ++ [B]) (by simpa using hkL)
        simp only [cntK]
        rw [h2]
      rw [List.cons_append, hTB, scanLE_cons_cons, ← hTB, hwalk]
      show scanLE k (TDs2 ++ [B]) (walkLT k L none).1 = _
      rw [hrec, hcnt]

/-! ### Splicing -/

theorem splice_length_aux (L : List Entry) (p : Entry → Bool) (e0 : Entry) :
    (L.takeWhile p ++ e0 :: L.dropWhile p).length = L.length + 1 := by
  have h := congrArg List.length (List.takeWhile_append_dropWhile p L)
  simp only [List.length_append] at h
  simp only [List.length_append, List.length_cons]
  omega

theorem spliceLT_length (L : List Entry) (k v : Nat) :
    (spliceLT L k v).length = L.length + 1 :=
  splice_length_aux L _ _

theorem mem_spliceLT {e : Entry} {L : List Entry} {k v : Nat} :
    e ∈ spliceLT L k v ↔ e = (k, v) ∨ e ∈ L := by
  have h := List.takeWhile_append_dropWhile (fun e => decide (e.1 < k)) L
  constructor
  · intro hmem
    rcases List.mem_append.mp hmem with h1 | h1
    · exact Or.inr (by rw [← h]; exact List.mem_append.mpr (Or.inl h1))
    · rcases List.mem_cons.mp h1 with h2 | h2
      · exact Or.inl h2
      · exact Or.inr (by rw [← h]; exact List.mem_append.mpr (Or.inr h2))
  · intro hmem
    rcases hmem with rfl | h1
    · exact List.mem_append.mpr (Or.inr (List.mem_cons_self _ _))
    · rw [← h] at h1
      rcases List.mem_append.mp h1 with h2 | h2
      · exact List.mem_append.mpr (Or.inl h2)
      · exact List.mem_append.mpr (Or.inr (List.mem_cons_of_mem _ h2))

theorem spliceLT_perm (L : List Entry) (k v : Nat) :
    (spliceLT L k v).Perm ((k, v) :: L) := by
  have h := List.takeWhile_append_dropWhile (fun e => decide (e.1 < k)) L
  calc (spliceLT L k v).Perm
        ((k, v) :: (L.takeWhile (fun e => e.1 < k) ++ L.dropWhile (fun e => e.1 < k))) :=
      List.perm_middle
    _ = ((k, v) :: L) := by rw [h]

theorem sorted_dropWhile_ge {B : List Entry} (hs : SortedK B) (k : Nat) :
    ∀ e ∈ B.dropWhile (fun e => e.1 < k), k ≤ e.1 := by
  induction B with
  | nil => simp
  | cons f rest ih =>
    by_cases hf : f.1 < k
    · rw [List.dropWhile_cons_of_pos (by simpa using hf)]
      exact ih (List.pairwise_cons.mp hs).2
    · rw [List.dropWhile_cons_of_neg (by simpa using hf)]
      intro e he
      rcases List.mem_cons.mp he with rfl | h1
      · omega
      · have := (List.pairwise_cons.mp hs).1 e h1
        omega

theorem spliceLT_sorted {B : List Entry} (hs : SortedK B) {k : Nat}
    (hk : k ∉ keysOf B) (v : Nat) : SortedK (spliceLT B k v) := by
  have htw : SortedK (B.takeWhile (fun e => e.1 < k)) :=
    List.Pairwise.sublist (List.takeWhile_sublist _) hs
  have hdw : SortedK (B.dropWhile (fun e => e.1 < k)) :=
    List.Pairwise.sublist (List.dropWhile_sublist _) hs
  have hdwge : ∀ e ∈ B.dropWhile (fun e => e.1 < k), k < e.1 := by
    intro e he
    have h1 := sorted_dropWhile_ge hs k e he
    have h2 : e.1 ≠ k := by
      intro hek
      apply hk
      rw [← hek]
      exact List.mem_map.mpr ⟨e, List.Sublist.subset (List.dropWhile_sublist _) he, rfl⟩
    omega
  refine List.pairwise_append.mpr ⟨htw, List.pairwise_cons.mpr ⟨hdwge, hdw⟩, ?_⟩
  intro a ha b hb
  have ha1 : a.1 < k := by simpa using List.mem_takeWhile_imp ha
  rcases List.mem_cons.mp hb with rfl | hb1
  · exact ha1
  · exact lt_trans ha1 (hdwge b hb1)

theorem spliceLT_subset_of_subset {L M : List Entry} (h : L ⊆ M) (k v : Nat) :
    spliceLT L k v ⊆ spliceLT M k v := by
  intro e he
  rcases mem_spliceLT.mp he with rfl | h1
  · exact mem_spliceLT.mpr (Or.inl rfl)
  · exact mem_spliceLT.mpr (Or.inr (h h1))

theorem subset_spliceLT (L : List Entry) (k v : Nat) : L ⊆ spliceLT L k v :=
  fun _ he => mem_spliceLT.mpr (Or.inr he)

/-! ### The promotion loop: closed form -/

theorem promoLoop_stop {k pf ln mx : Nat} (v : Nat) (h : ¬(flipCoin k pf ∧ ln < mx))
    (fuel : Nat) (ls : List (List Entry)) :
    promoLoop k v mx (fuel + 1) pf ln ls = (ls, ln) := by
  cases ls with
  | nil => simp [promoLoop, h]
  | cons L above => simp [promoLoop, h]

theorem promoLoop_step_top {k pf ln mx : Nat} (v : Nat)
    (hg : flipCoin k pf ∧ ln < mx) (htop : ln = pf + 2) (fuel : Nat)
    (L : List Entry) (above : List (List Entry)) :
    promoLoop k v mx (fuel + 1) pf ln (L :: above) =
      (spliceLT L k v :: (promoLoop k v mx fuel (pf + 1) (ln + 1) ([] :: above)).1,
        (promoLoop k v mx fuel (pf + 1) (ln + 1) ([] :: above)).2) := by
  have h2 : pf + 2 < mx := htop ▸ hg.2
  subst htop
  simp [promoLoop, hg.1, h2]

theorem promoLoop_step_mid {k pf ln mx : Nat} (v : Nat)
    (hg : flipCoin k pf ∧ ln < mx) (htop : ln ≠ pf + 2) (fuel : Nat)
    (L : List Entry) (above : List (List Entry)) :
    promoLoop k v mx (fuel + 1) pf ln (L :: above) =
      (spliceLT L k v :: (promoLoop k v mx fuel (pf + 1) ln above).1,
        (promoLoop k v mx fuel (pf + 1) ln above).2) := by
  simp [promoLoop, hg.1, hg.2, htop]

theorem promoSteps_stop {k pf ln mx : Nat} (h : ¬(flipCoin k pf ∧ ln < mx)) (fuel : Nat) :
    promoSteps k mx (fuel + 1) pf ln = 0 := by
  simp [promoSteps, h]

theorem promoSteps_step_top {k pf ln mx : Nat} (hg : flipCoin k pf ∧ ln < mx)
    (htop : ln = pf + 2) (fuel : Nat) :
    promoSteps k mx (fuel + 1) pf ln = promoSteps k mx fuel (pf + 1) (ln + 1) + 1 := by
  have h2 : pf + 2 < mx := htop ▸ hg.2
  subst htop
  simp [promoSteps, hg.1, h2]

theorem promoSteps_step_mid {k pf ln mx : Nat} (hg : flipCoin k pf ∧ ln < mx)
    (htop : ln ≠ pf + 2) (fuel : Nat) :
    promoSteps k mx (fuel + 1) pf ln = promoSteps k mx fuel (pf + 1) ln + 1 := by
  simp [promoSteps, hg.1, hg.2, htop]

theorem promo_closed (k v mx : Nat) :
    ∀ (fuel pf ln : Nat) (ls : List (List Entry)),
      ls.length + pf + 1 = ln → pf + 2 ≤ ln →
      promoLoop k v mx fuel pf ln ls =
        (((ls ++ List.replicate (max ln (pf + promoSteps k mx fuel pf ln + 2) - ln) []).take
            (promoSteps k mx fuel pf ln)).map (fun L => spliceLT L k v) ++
          (ls ++ List.replicate (max ln (pf + promoSteps k mx fuel pf ln + 2) - ln) []).drop
            (promoSteps k mx fuel pf ln),
         max ln (pf + promoSteps k mx fuel pf ln + 2)) := by
  intro fuel
  induction fuel with
  | zero =>
    intro pf ln ls hlen hle
    have hmax : max ln (pf + 0 + 2) = ln := Nat.max_eq_left (by omega)
    show (ls, ln) = _
    rw [show promoSteps k mx 0 pf ln = 0 from rfl, hmax]
    simp
  | succ fuel ih =>
    intro pf ln ls hlen hle
    by_cases hg : flipCoin k pf ∧ ln < mx
    · obtain ⟨L, above, rfl⟩ : ∃ L above, ls = L :: above := by
        cases ls with
        | nil => simp at hlen; omega
        | cons L above => exact ⟨L, above, rfl⟩
      by_cases htop : ln = pf + 2
      · have habove : above = [] := by
          have hl : above.length = 0 := by simp at hlen; omega
          exact List.length_eq_zero.mp hl
        subst habove
        have hstep := promoLoop_step_top v hg htop fuel L []
        have hsteps := promoSteps_step_top hg htop fuel
        have hrec := ih (pf + 1) (ln + 1) ([] :: []) (by simp; omega) (by omega)
        rw [hstep, hrec, hsteps]
        have hm1 : max (ln + 1) (pf + 1 + promoSteps k mx fuel (pf + 1) (ln + 1) + 2) - (ln + 1) =
            promoSteps k mx fuel (pf + 1) (ln + 1) := by omega
        have hm2 : max ln (pf + (promoSteps k mx fuel (pf + 1) (ln + 1) + 1) + 2) =
            pf + promoSteps k mx fuel (pf + 1) (ln + 1) + 3 := by omega
        have hm3 : max (ln + 1) (pf + 1 + promoSteps k mx fuel (pf + 1) (ln + 1) + 2) =
            pf + promoSteps k mx fuel (pf + 1) (ln + 1) + 3 := by omega
        rw [hm1, hm2, hm3]
        have hext : ([[]] : List (List Entry)) ++
            List.replicate (promoSteps k mx fuel (pf + 1) (ln + 1)) [] =
            List.replicate (promoSteps k mx fuel (pf + 1) (ln + 1) + 1) [] := by
          rw [List.replicate_succ]
          rfl
        rw [hext]
        have hext2 : [L] ++ List.replicate (pf + promoSteps k mx fuel (pf + 1) (ln + 1) + 3 - ln)
            ([] : List Entry) =
            L :: List.replicate (promoSteps k mx fuel (pf + 1) (ln + 1) + 1) [] := by
          have : pf + promoSteps k mx fuel (pf + 1) (ln + 1) + 3 - ln =
              promoSteps k mx fuel (pf + 1) (ln + 1) + 1 := by omega
          rw [this]
          rfl
        rw [hext2]
        simp only [List.take_succ_cons, List.drop_succ_cons, List.map_cons, List.cons_append]
      · obtain ⟨A2, above2, rfl⟩ : ∃ A2 above2, above = A2 :: above2 := by
          cases above with
          | nil => simp at hlen; omega
          | cons A2 above2 => exact ⟨A2, above2, rfl⟩
        have hstep := promoLoop_step_mid v hg htop fuel L (A2 :: above2)
        have hsteps := promoSteps_step_mid hg htop fuel
        have hrec := ih (pf + 1) ln (A2 :: above2) (by simp at hlen ⊢; omega) (by omega)
        rw [hstep, hrec, hsteps]
        have hm2 : max ln (pf + (promoSteps k mx fuel (pf + 1) ln + 1) + 2) =
            max ln (pf + 1 + promoSteps k mx fuel (pf + 1) ln + 2) := by omega
        rw [hm2]
        simp only [List.cons_append, List.take_succ_cons, List.drop_succ_cons, List.map_cons]
    · have hsteps := promoSteps_stop hg fuel
      have hstep := promoLoop_stop v hg fuel ls
      have hmax : max ln (pf + 0 + 2) = ln := Nat.max_eq_left (by omega)
      rw [hstep, hsteps, hmax]
      simp

/-! ### From the invariant to the traversal hypotheses -/

theorem inv_shape {s : SkipState} (hs : Inv s) : ∃ B rest, s.layers = B :: rest := by
  cases h : s.layers with
  | nil =>
    exfalso
    have h1 := hs.len_eq
    have h2 := hs.two_le
    rw [h] at h1
    simp at h1
    omega
  | cons B rest => exact ⟨B, rest, rfl⟩

theorem base_of {s : SkipState} {B : List Entry} {rest : List (List Entry)}
    (h : s.layers = B :: rest) : s.base = B := by
  simp [SkipState.base, h]

theorem layersTD_of {s : SkipState} {B : List Entry} {rest : List (List Entry)}
    (h : s.layers = B :: rest) : s.layersTD = rest.reverse ++ [B] := by
  simp [SkipState.layersTD, h]

theorem TD_chain {s : SkipState} (hs : Inv s) {B : List Entry} {rest : List (List Entry)}
    (h : s.layers = B :: rest) : (rest.reverse ++ [B]).Chain' (· ⊆ ·) := by
  have h1 : s.layers.reverse.Chain' (· ⊆ ·) := List.chain'_reverse.mpr hs.sub
  rw [h] at h1
  simpa [List.reverse_cons] using h1

theorem TD_sorted {s : SkipState} (hs : Inv s) {B : List Entry} {rest : List (List Entry)}
    (h : s.layers = B :: rest) : ∀ L ∈ rest.reverse ++ [B], SortedK L := by
  intro L hL
  apply hs.sorted
  rw [h]
  rcases List.mem_append.mp hL with h1 | h1
  · exact List.mem_cons_of_mem _ (List.mem_reverse.mp h1)
  · simp only [List.mem_singleton] at h1
    simp [h1]

theorem base_sorted {s : SkipState} (hs : Inv s) : SortedK s.base := by
  obtain ⟨B, rest, h⟩ := inv_shape hs
  rw [base_of h]
  exact hs.sorted B (by rw [h]; simp)

theorem key_val_unique {B : List Entry} (hs : SortedK B) {k v1 v2 : Nat}
    (h1 : (k, v1) ∈ B) (h2 : (k, v2) ∈ B) : v1 = v2 := by
  induction B with
  | nil => simp at h1
  | cons e rest ih =>
    obtain ⟨hhead, htail⟩ := List.pairwise_cons.mp hs
    rcases List.mem_cons.mp h1 with ha | ha <;> rcases List.mem_cons.mp h2 with hb | hb
    · exact congrArg Prod.snd (Eq.trans ha (Eq.symm hb))
    · exfalso
      have := hhead (k, v2) hb
      rw [← ha] at this
      simp at this
    · exfalso
      have := hhead (k, v1) ha
      rw [← hb] at this
      simp at this
    · exact ih htail ha hb

theorem scan_state_missing {s : SkipState} (hs : Inv s) {k : Nat}
    (hk : k ∉ keysOf s.base) :
    scanLE k s.layersTD none = .missing (walkLT k s.base none).1 (walkLT k s.base none).2 := by
  obtain ⟨B, rest, h⟩ := inv_shape hs
  rw [base_of h] at hk ⊢
  rw [layersTD_of h]
  exact scan_missing k rest.reverse B none (TD_chain hs h) (TD_sorted hs h) trivial hk

theorem scan_state_found {s : SkipState} (hs : Inv s) {k : Nat}
    (hk : k ∈ keysOf s.base) :
    ∃ v c, scanLE k s.layersTD none = .found (cntK k s.layers - 1) (k, v) c ∧
      (k, v) ∈ s.base ∧ curOK k s.base c := by
  obtain ⟨B, rest, h⟩ := inv_shape hs
  rw [base_of h] at hk ⊢
  rw [layersTD_of h]
  obtain ⟨v, c, hscan, hv, hc⟩ :=
    scan_found k rest.reverse B none (TD_chain hs h) (TD_sorted hs h) trivial hk
  refine ⟨v, c, ?_, hv, hc⟩
  have hcnt : cntK k (rest.reverse ++ [B]) = cntK k s.layers := by
    have hrev : rest.reverse ++ [B] = (B :: rest).reverse := by
      rw [List.reverse_cons]
    rw [hrev, h]
    simp only [cntK]
    exact List.countP_reverse _ _
  rw [hscan, hcnt]

theorem cntK_base_pos {s : SkipState} (hs : Inv s) {k : Nat}
    (hk : k ∈ keysOf s.base) : 1 ≤ cntK k s.layers := by
  obtain ⟨B, rest, h⟩ := inv_shape hs
  rw [base_of h] at hk
  rw [h]
  have := List.countP_cons_of_pos (p := fun L => decide (k ∈ keysOf L)) (a := B) rest
    (by simpa using hk)
  simp only [cntK, this]
  omega

/-! ### Read queries on present and absent keys -/

theorem findImpl_present {s : SkipState} (hs : Inv s) {k v : Nat}
    (hmem : (k, v) ∈ s.base) : findImpl s k = .ok v := by
  have hk : k ∈ keysOf s.base := mem_keysOf.mpr ⟨v, hmem⟩
  obtain ⟨v2, c, hscan, hv2, _⟩ := scan_state_found hs hk
  have hval : v2 = v := key_val_unique (base_sorted hs) hv2 hmem
  rw [findImpl, hscan, hval]

theorem findImpl_absent {s : SkipState} (hs : Inv s) {k : Nat}
    (hk : k ∉ keysOf s.base) : findImpl s k = .error .KeyNotFound := by
  rw [findImpl, scan_state_missing hs hk]

theorem heightImpl_present {s : SkipState} (hs : Inv s) {k : Nat}
    (hk : k ∈ keysOf s.base) : heightImpl s k = .ok (cntK k s.layers) := by
  obtain ⟨v, c, hscan, _, _⟩ := scan_state_found hs hk
  have hpos := cntK_base_pos hs hk
  rw [heightImpl, hscan]
  have heq : cntK k s.layers - 1 + 1 = cntK k s.layers := by omega
  show Except.ok (cntK k s.layers - 1 + 1) = Except.ok (cntK k s.layers)
  rw [heq]

theorem heightImpl_absent {s : SkipState} (hs : Inv s) {k : Nat}
    (hk : k ∉ keysOf s.base) : heightImpl s k = .error .KeyNotFound := by
  rw [heightImpl, scan_state_missing hs hk]

theorem nextKeyImpl_absent {s : SkipState} (hs : Inv s) {k : Nat}
    (hk : k ∉ keysOf s.base) (hk0 : k ≠ 0) :
    nextKeyImpl s k = .error .KeyNotFound := by
  have hcur : curKeyD (walkLT k s.base none).1 ≠ k := by
    rcases walkLT_fst k s.base none with h1 | ⟨x, h1, h2, _⟩
    · rw [h1]
      simp only [curKeyD]
      omega
    · rw [h1]
      simp only [curKeyD]
      omega
  rw [nextKeyImpl, scan_state_missing hs hk]
  simp [hcur]

theorem previousKeyImpl_absent {s : SkipState} (hs : Inv s) {k : Nat}
    (hk : k ∉ keysOf s.base) (hk0 : k ≠ 0) :
    previousKeyImpl s k = .error .KeyNotFound := by
  obtain ⟨B, rest, h⟩ := inv_shape hs
  rw [base_of h] at hk
  have hsB : SortedK B := hs.sorted B (by rw [h]; simp)
  have hcurIn : curOK k B (descendUpper k rest.reverse none) :=
    descendUpper_ok k rest.reverse B none (TD_chain hs h) (TD_sorted hs h) trivial
  have hwalk : walkLT k (suffixAfter B (descendUpper k rest.reverse none))
      (descendUpper k rest.reverse none) = walkLT k B none := walkLT_from hsB hcurIn
  simp only [previousKeyImpl, h, hwalk]
  have hsnd := walkLT_snd k B none
  cases hdw : B.dropWhile (fun e => decide (e.1 < k)) with
  | nil =>
    rw [hsnd, hdw]
    simp
    omega
  | cons e t =>
    have he : e ∈ B := List.Sublist.subset (List.dropWhile_sublist _)
      (by rw [hdw]; exact List.mem_cons_self _ _)
    have hek : e.1 ≠ k := fun hh => hk (by rw [← hh]; exact List.mem_map.mpr ⟨e, he, rfl⟩)
    rw [hsnd, hdw]
    simp [hek]

theorem isSmallestKeyImpl_absent {s : SkipState} (hs : Inv s) {k : Nat}
    (hk : k ∉ keysOf s.base) : isSmallestKeyImpl s k = .error .KeyNotFound := by
  rw [isSmallestKeyImpl, scan_state_missing hs hk]

theorem isLargestKeyImpl_absent {s : SkipState} (hs : Inv s) {k : Nat}
    (hk : k ∉ keysOf s.base) : isLargestKeyImpl s k = .error .KeyNotFound := by
  rw [isLargestKeyImpl, scan_state_missing hs hk]

/-! ### Duplicate insertion -/

theorem sorted_dropWhile_cons {B : List Entry} (hs : SortedK B) {k w : Nat}
    (hmem : (k, w) ∈ B) :
    ∃ t, B.dropWhile (fun e => e.1 < k) = (k, w) :: t := by
  induction B with
  | nil => simp at hmem
  | cons e rest ih =>
    obtain ⟨hhead, htail⟩ := List.pairwise_cons.mp hs
    by_cases hlt : e.1 < k
    · have hne : (k, w) ≠ e := by
        intro hh
        rw [← hh] at hlt
        simp at hlt
      have hmem2 : (k, w) ∈ rest := by
        rcases List.mem_cons.mp hmem with h1 | h1
        · exact absurd h1 hne
        · exact h1
      obtain ⟨t, ht⟩ := ih htail hmem2
      refine ⟨t, ?_⟩
      rw [List.dropWhile_cons_of_pos (by simpa using hlt), ht]
    · rcases List.mem_cons.mp hmem with h1 | h1
      · refine ⟨rest, ?_⟩
        rw [List.dropWhile_cons_of_neg (by simpa using hlt), ← h1]
      · exfalso
        have := hhead (k, w) h1
        simp at this
        omega

theorem insertImpl_dup {s : SkipState} (hs : Inv s) {k : Nat}
    (hk : k ∈ keysOf s.base) (v : Nat) : insertImpl s k v = (false, s) := by
  obtain ⟨B, rest, h⟩ := inv_shape hs
  rw [base_of h] at hk
  obtain ⟨w, hw⟩ := mem_keysOf.mp hk
  have hsB : SortedK B := hs.sorted B (by rw [h]; simp)
  have hcurIn : curOK k B (descendUpper k rest.reverse none) :=
    descendUpper_ok k rest.reverse B none (TD_chain hs h) (TD_sorted hs h) trivial
  have hwalk : walkLT k (suffixAfter B (descendUpper k rest.reverse none))
      (descendUpper k rest.reverse none) = walkLT k B none := walkLT_from hsB hcurIn
  have hdrop : (suffixAfter B (descendUpper k rest.reverse none)).dropWhile
      (fun e => decide (e.1 < k)) = B.dropWhile (fun e => decide (e.1 < k)) := by
    rw [← walkLT_snd k (suffixAfter B (descendUpper k rest.reverse none))
      (descendUpper k rest.reverse none), hwalk, walkLT_snd]
  obtain ⟨t, ht⟩ := sorted_dropWhile_cons hsB hw
  simp only [insertImpl, h, hdrop, ht]
  simp

/-! ### Fresh insertion -/

/-- Number of promotion-loop iterations performed when `k` is inserted into
`s` (the cap having just been recomputed to `capAfter s`). -/
def stepsOf (s : SkipState) (k : Nat) : Nat :=
  promoSteps k (capAfter s) (capAfter s) 0 s.layer_num

/-- The layer count after inserting `k` into `s`. -/
def lnAfter (s : SkipState) (k : Nat) : Nat := max s.layer_num (stepsOf s k + 2)

/-- The non-base layers of `s` extended by the brand-new empty layers created
during the promotion of `k`. -/
def grownTail (s : SkipState) (k : Nat) : List (List Entry) :=
  s.layers.tail ++ List.replicate (lnAfter s k - s.layer_num) []

/-- The non-base layers after inserting `(k, v)`: the lowest `stepsOf s k` of
them receive a tower entry for `k`, the ones above are untouched. -/
def tailAfter (s : SkipState) (k v : Nat) : List (List Entry) :=
  ((grownTail s k).take (stepsOf s k)).map (fun L => spliceLT L k v) ++
    (grownTail s k).drop (stepsOf s k)

/-- The state produced by a successful `insert(k, v)`. -/
def stateAfter (s : SkipState) (k v : Nat) : SkipState :=
  ⟨spliceLT s.base k v :: tailAfter s k v, s.listSize + 1, lnAfter s k, capAfter s⟩

theorem upToKey_take {k x : Nat} : ∀ {B : List Entry}, SortedK B → x ∈ keysOf B → x < k →
    upToKey B x ++ (afterKey B x).takeWhile (fun e => e.1 < k) =
      B.takeWhile (fun e => e.1 < k) := by
  intro B
  induction B with
  | nil =>
    intro _ hx _
    simp [keysOf] at hx
  | cons e rest ih =>
    intro hs hx hlt
    by_cases he : e.1 = x
    · have hek : e.1 < k := he ▸ hlt
      simp [upToKey, afterKey, he, List.takeWhile_cons, hek, hlt]
    · have hxr : x ∈ keysOf rest := by
        simp only [keysOf, List.map_cons, List.mem_cons] at hx
        tauto
      have hex : e.1 < x := sorted_head_le hs hxr
      have hek : e.1 < k := lt_trans hex hlt
      simp only [upToKey, afterKey]
      rw [if_neg he, if_neg he, List.cons_append,
        ih (List.pairwise_cons.mp hs).2 hxr hlt,
        List.takeWhile_cons_of_pos (by simpa using hek)]

theorem prefixThrough_take {k : Nat} {B : List Entry} (hs : SortedK B) {c : Option Nat}
    (hc : curOK k B c) :
    prefixThrough B c ++ (suffixAfter B c).takeWhile (fun e => e.1 < k) =
      B.takeWhile (fun e => e.1 < k) := by
  cases c with
  | none => rfl
  | some x => exact upToKey_take hs hc.2 hc.1

theorem insertImpl_fresh {s : SkipState} (hs : Inv s) {k : Nat}
    (hk : k ∉ keysOf s.base) (v : Nat) :
    insertImpl s k v = (true, stateAfter s k v) := by
  obtain ⟨B, rest, h⟩ := inv_shape hs
  rw [base_of h] at hk
  have hsB : SortedK B := hs.sorted B (by rw [h]; simp)
  have hcurIn : curOK k B (descendUpper k rest.reverse none) :=
    descendUpper_ok k rest.reverse B none (TD_chain hs h) (TD_sorted hs h) trivial
  have hwalk : walkLT k (suffixAfter B (descendUpper k rest.reverse none))
      (descendUpper k rest.reverse none) = walkLT k B none := walkLT_from hsB hcurIn
  have hdrop : (suffixAfter B (descendUpper k rest.reverse none)).dropWhile
      (fun e => decide (e.1 < k)) = B.dropWhile (fun e => decide (e.1 < k)) := by
    rw [← walkLT_snd k (suffixAfter B (descendUpper k rest.reverse none))
      (descendUpper k rest.reverse none), hwalk, walkLT_snd]
  have htake : prefixThrough B (descendUpper k rest.reverse none) ++
      (suffixAfter B (descendUpper k rest.reverse none)).takeWhile (fun e => decide (e.1 < k)) =
      B.takeWhile (fun e => decide (e.1 < k)) := prefixThrough_take hsB hcurIn
  have hlen : rest.length + 0 + 1 = s.layer_num := by
    have h1 := hs.len_eq
    rw [h] at h1
    simpa using h1
  have hle : 0 + 2 ≤ s.layer_num := by
    have := hs.two_le
    omega
  have hclosed := promo_closed k v (capAfter s) (capAfter s) 0 s.layer_num rest hlen hle
  have hz : (0 : Nat) + promoSteps k (capAfter s) (capAfter s) 0 s.layer_num + 2 =
      promoSteps k (capAfter s) (capAfter s) 0 s.layer_num + 2 := by omega
  rw [hz] at hclosed
  have hbase : s.base = B := base_of h
  have hgrown : grownTail s k = rest ++
      List.replicate (max s.layer_num (stepsOf s k + 2) - s.layer_num) [] := by
    simp [grownTail, lnAfter, h]
  simp only [insertImpl, h, hdrop, htake]
  cases hdw : B.dropWhile (fun e => decide (e.1 < k)) with
  | nil =>
    rw [if_neg (by simp)]
    rw [hclosed]
    simp only [stateAfter, tailAfter, hgrown, stepsOf, lnAfter, hbase]
    simp [spliceLT, hdw]
  | cons e t =>
    have he : e ∈ B := List.Sublist.subset (List.dropWhile_sublist _)
      (by rw [hdw]; exact List.mem_cons_self _ _)
    have hek : e.1 ≠ k := fun hh => hk (by rw [← hh]; exact List.mem_map.mpr ⟨e, he, rfl⟩)
    rw [if_neg (by simp [hek])]
    rw [hclosed]
    simp only [stateAfter, tailAfter, hgrown, stepsOf, lnAfter, hbase]
    simp [spliceLT, hdw]

/-! ### The invariant is preserved by insertion -/

theorem chain_replicate_nil : ∀ n : Nat,
    (List.replicate n ([] : List Entry)).Chain' (fun lower upper => upper ⊆ lower) := by
  intro n
  induction n with
  | zero => simp
  | succ n ih =>
    rw [List.replicate_succ]
    refine List.chain'_cons'.mpr ⟨?_, ih⟩
    intro y hy
    cases n with
    | zero => simp at hy
    | succ m =>
      rw [List.replicate_succ] at hy
      simp only [List.head?_cons, Option.mem_def, Option.some.injEq] at hy
      subst hy
      exact List.nil_subset _

theorem chain_grow {l : List (List Entry)} (hchain : l.Chain' (fun lower upper => upper ⊆ lower))
    (n : Nat) : (l ++ List.replicate n []).Chain' (fun lower upper => upper ⊆ lower) := by
  refine List.chain'_append.mpr ⟨hchain, chain_replicate_nil n, ?_⟩
  intro x _ y hy
  cases n with
  | zero => simp at hy
  | succ n =>
    rw [List.replicate_succ] at hy
    simp only [List.head?_cons, Option.mem_def, Option.some.injEq] at hy
    subst hy
    exact List.nil_subset _

theorem chain_splice_result (k v : Nat) :
    ∀ (G : List (List Entry)) (t : Nat) (B : List Entry),
      (B :: G).Chain' (fun lower upper => upper ⊆ lower) →
      (spliceLT B k v :: ((G.take t).map (fun L => spliceLT L k v) ++ G.drop t)).Chain'
        (fun lower upper => upper ⊆ lower) := by
  intro G
  induction G with
  | nil =>
    intro t B _
    simp [List.chain'_singleton]
  | cons M G2 ih =>
    intro t B hchain
    obtain ⟨hBM, hchain2⟩ := List.chain'_cons.mp hchain
    cases t with
    | zero =>
      simp only [List.take_zero, List.map_nil, List.nil_append, List.drop_zero]
      exact List.chain'_cons.mpr ⟨ List.Subset.trans hBM (subset_spliceLT B k v), hchain2⟩
    | succ t2 =>
      rw [List.take_succ_cons, List.drop_succ_cons, List.map_cons, List.cons_append]
      exact List.chain'_cons.mpr
        ⟨spliceLT_subset_of_subset hBM k v, ih t2 M hchain2⟩

theorem grownTail_facts {s : SkipState} (hs : Inv s) {k : Nat} (hk : k ∉ keysOf s.base) :
    (∀ M ∈ grownTail s k, SortedK M ∧ k ∉ keysOf M ∧ M ⊆ s.base) ∧
      (s.base :: grownTail s k).Chain' (fun lower upper => upper ⊆ lower) ∧
      grownTail s k ≠ [] ∧
      (grownTail s k).length = lnAfter s k - 1 := by
  obtain ⟨B, rest, h⟩ := inv_shape hs
  have hbase : s.base = B := base_of h
  have hln : rest.length + 1 = s.layer_num := by
    have h1 := hs.len_eq
    rw [h] at h1
    simpa using h1
  have hchainB : (B :: rest).Chain' (fun lower upper => upper ⊆ lower) := by
    have := hs.sub
    rwa [h] at this
  have hsubB : ∀ M ∈ rest, M ⊆ B := chain_sub_head B rest hchainB
  have hG : grownTail s k = rest ++ List.replicate (lnAfter s k - s.layer_num) [] := by
    simp [grownTail, h]
  refine ⟨?_, ?_, ?_, ?_⟩
  · intro M hM
    rw [hG] at hM
    rcases List.mem_append.mp hM with h1 | h1
    · refine ⟨hs.sorted M (by rw [h]; exact List.mem_cons_of_mem _ h1), ?_, by rw [hbase]; exact hsubB M h1⟩
      intro hkM
      rw [hbase] at hk
      exact hk (keysOf_mono (hsubB M h1) hkM)
    · have hM2 : M = [] := List.eq_of_mem_replicate h1
      subst hM2
      exact ⟨List.Pairwise.nil, by simp [keysOf], List.nil_subset _⟩
  · rw [hG, hbase]
    have : ((B :: rest) ++ List.replicate (lnAfter s k - s.layer_num) []).Chain'
        (fun lower upper => upper ⊆ lower) := chain_grow hchainB _
    simpa using this
  · rw [hG]
    intro hnil
    rcases List.append_eq_nil.mp hnil with ⟨hr, _⟩
    have h1 : rest.length = 0 := by rw [hr]; rfl
    have h2 := hs.two_le
    omega
  · rw [hG]
    have h2 := hs.two_le
    have h3 : s.layer_num ≤ lnAfter s k := Nat.le_max_left _ _
    rw [List.length_append, List.length_replicate]
    omega

theorem stepsOf_lt_grownTail_length {s : SkipState} (k : Nat)
    (hlen : (grownTail s k).length = lnAfter s k - 1) :
    stepsOf s k < (grownTail s k).length := by
  have h1 : stepsOf s k + 2 ≤ lnAfter s k := Nat.le_max_right _ _
  omega

theorem stateAfter_base (s : SkipState) (k v : Nat) :
    (stateAfter s k v).base = spliceLT s.base k v := rfl

theorem stateAfter_inv {s : SkipState} (hs : Inv s) {k : Nat}
    (hk : k ∉ keysOf s.base) (v : Nat) : Inv (stateAfter s k v) := by
  obtain ⟨hmem, hchain, hne, hlen⟩ := grownTail_facts hs hk
  have hsB : SortedK s.base := base_sorted hs
  have htlt := stepsOf_lt_grownTail_length k hlen
  have h2 := hs.two_le
  have hln : s.layer_num ≤ lnAfter s k := Nat.le_max_left _ _
  refine ⟨?_, ?_, ?_, ?_, ?_, ?_⟩
  · -- length
    show (spliceLT s.base k v :: tailAfter s k v).length = lnAfter s k
    simp only [List.length_cons, tailAfter, List.length_append, List.length_map,
      List.length_take, List.length_drop]
    omega
  · exact le_trans h2 hln
  · -- sortedness of every layer
    intro L hL
    rcases List.mem_cons.mp hL with rfl | hL2
    · exact spliceLT_sorted hsB hk v
    · rcases List.mem_append.mp hL2 with h1 | h1
      · obtain ⟨M, hM, rfl⟩ := List.mem_map.mp h1
        have hM2 := hmem M (List.Sublist.subset (List.take_sublist _ _) hM)
        exact spliceLT_sorted hM2.1 hM2.2.1 v
      · exact (hmem _ (List.Sublist.subset (List.drop_sublist _ _) h1)).1
  · -- the subset chain
    exact chain_splice_result k v (grownTail s k) (stepsOf s k) s.base hchain
  · -- top layer empty
    show (spliceLT s.base k v :: tailAfter s k v).getLast? = some []
    have hdropne : (grownTail s k).drop (stepsOf s k) ≠ [] := by
      intro hdn
      have := congrArg List.length hdn
      simp at this
      omega
    have hlast : (grownTail s k).getLast? = some [] := by
      obtain ⟨B, rest, h⟩ := inv_shape hs
      have hG : grownTail s k = rest ++ List.replicate (lnAfter s k - s.layer_num) [] := by
        simp [grownTail, h]
      by_cases hgrow : lnAfter s k - s.layer_num = 0
      · rw [hG, hgrow]
        simp only [List.replicate_zero, List.append_nil]
        have htop := hs.top
        rw [h] at htop
        have hrestne : rest ≠ [] := by
          intro hrn
          have h1 := hs.len_eq
          rw [h, hrn] at h1
          simp at h1
          omega
        cases hrest : rest with
        | nil => exact absurd hrest hrestne
        | cons r0 rs =>
          rw [hrest] at htop
          rwa [List.getLast?_cons_cons] at htop
      · rw [hG]
        rw [List.getLast?_append]
        cases hrep : List.replicate (lnAfter s k - s.layer_num) ([] : List Entry) with
        | nil =>
          have := congrArg List.length hrep
          simp at this
          omega
        | cons a b =>
          have hall : ∀ x ∈ a :: b, x = ([] : List Entry) := by
            rw [← hrep]
            intro x hx
            exact List.eq_of_mem_replicate hx
          have hlastrep : (a :: b).getLast? = some [] := by
            have hmemlast : (a :: b).getLast (by simp) ∈ a :: b := List.getLast_mem _
            rw [List.getLast?_eq_getLast _ (by simp)]
            rw [hall _ hmemlast]
          rw [hlastrep]
          rfl
    -- the last of the new tail is the last of grownTail
    have htail : (tailAfter s k v).getLast? = some [] := by
      show (((grownTail s k).take (stepsOf s k)).map (fun L => spliceLT L k v) ++
        (grownTail s k).drop (stepsOf s k)).getLast? = some []
      rw [List.getLast?_append]
      have hld : ((grownTail s k).drop (stepsOf s k)).getLast? = some [] := by
        have hjoin : (grownTail s k).take (stepsOf s k) ++
            (grownTail s k).drop (stepsOf s k) = grownTail s k :=
          List.take_append_drop _ _
        have := @List.getLast?_append (List Entry) ((grownTail s k).take (stepsOf s k))
          ((grownTail s k).drop (stepsOf s k))
        rw [hjoin, hlast] at this
        cases hdrop2 : ((grownTail s k).drop (stepsOf s k)).getLast? with
        | none =>
          exfalso
          cases hdw : (grownTail s k).drop (stepsOf s k) with
          | nil =>
            have := congrArg List.length hdw
            simp at this
            omega
          | cons x y =>
            rw [hdw] at hdrop2
            rw [List.getLast?_eq_getLast _ (by simp)] at hdrop2
            simp at hdrop2
        | some z =>
          rw [hdrop2] at this
          simpa using this
      rw [hld]
      rfl
    cases htv : tailAfter s k v with
    | nil =>
      rw [htv] at htail
      simp at htail
    | cons a b =>
      rw [htv] at htail
      rw [show ((spliceLT s.base k v :: a :: b).getLast? = (a :: b).getLast?) from by
        rw [List.getLast?_cons_cons]]
      exact htail
  · -- size
    show s.listSize + 1 = ((spliceLT s.base k v :: tailAfter s k v).headD []).length
    simp only [List.headD_cons, spliceLT_length]
    rw [hs.size_eq]
    rfl

/-! ### Reachability and preservation -/

theorem inv_init : Inv initState := by
  refine ⟨rfl, by decide, ?_, ?_, rfl, rfl⟩
  · intro L hL
    rcases List.mem_cons.mp hL with rfl | h1
    · exact List.Pairwise.nil
    · have hL2 : L = [] := by simpa using h1
      rw [hL2]
      exact List.Pairwise.nil
  · exact List.chain'_cons.mpr ⟨List.nil_subset _, List.chain'_singleton _⟩

theorem insert_inv {s : SkipState} (hs : Inv s) (k v : Nat) :
    Inv (insertImpl s k v).2 := by
  by_cases hk : k ∈ keysOf s.base
  · rw [insertImpl_dup hs hk]
    exact hs
  · rw [insertImpl_fresh hs hk]
    exact stateAfter_inv hs hk v

theorem reachable_inv {s : SkipState} (h : Reachable s) : Inv s := by
  induction h with
  | init => exact inv_init
  | step s k v _ ih => exact insert_inv ih k v

theorem insert_preserves_base_mem {s : SkipState} (hs : Inv s) {k0 v0 : Nat}
    (hmem : (k0, v0) ∈ s.base) (k v : Nat) :
    (k0, v0) ∈ (insertImpl s k v).2.base := by
  by_cases hk : k ∈ keysOf s.base
  · rw [insertImpl_dup hs hk]
    exact hmem
  · rw [insertImpl_fresh hs hk]
    rw [stateAfter_base]
    exact subset_spliceLT _ _ _ hmem

theorem insert_keeps_key {s : SkipState} (hs : Inv s) {k0 : Nat}
    (hmem : k0 ∈ keysOf s.base) (k v : Nat) :
    k0 ∈ keysOf (insertImpl s k v).2.base := by
  obtain ⟨v0, hv0⟩ := mem_keysOf.mp hmem
  exact mem_keysOf.mpr ⟨v0, insert_preserves_base_mem hs hv0 k v⟩

/-! ### Effect of insertion on tower heights -/

theorem cntK_stateAfter_self {s : SkipState} (hs : Inv s) {k : Nat}
    (hk : k ∉ keysOf s.base) (v : Nat) :
    cntK k (stateAfter s k v).layers = 1 + stepsOf s k := by
  obtain ⟨hmemG, _, _, hlen⟩ := grownTail_facts hs hk
  have htlt := stepsOf_lt_grownTail_length k hlen
  show cntK k (spliceLT s.base k v :: tailAfter s k v) = 1 + stepsOf s k
  have hbase_true : k ∈ keysOf (spliceLT s.base k v) :=
    mem_keysOf.mpr ⟨v, mem_spliceLT.mpr (Or.inl rfl)⟩
  have hmap : List.countP (fun L => decide (k ∈ keysOf L))
      (((grownTail s k).take (stepsOf s k)).map (fun L => spliceLT L k v)) =
      stepsOf s k := by
    have hcall : List.countP (fun L => decide (k ∈ keysOf L))
        (((grownTail s k).take (stepsOf s k)).map (fun L => spliceLT L k v)) =
        (((grownTail s k).take (stepsOf s k)).map (fun L => spliceLT L k v)).length := by
      apply List.countP_eq_length.mpr
      intro M hM
      obtain ⟨M0, _, rfl⟩ := List.mem_map.mp hM
      exact decide_eq_true (mem_keysOf.mpr ⟨v, mem_spliceLT.mpr (Or.inl rfl)⟩)
    rw [hcall, List.length_map, List.length_take]
    omega
  have hdrop : List.countP (fun L => decide (k ∈ keysOf L))
      ((grownTail s k).drop (stepsOf s k)) = 0 := by
    apply List.countP_eq_zero.mpr
    intro M hM
    have hf := hmemG M (List.Sublist.subset (List.drop_sublist _ _) hM)
    simpa using hf.2.1
  simp only [cntK, tailAfter, List.countP_cons, List.countP_append, hmap, hdrop,
    decide_eq_true hbase_true, if_true]
  omega

theorem cntK_stateAfter_other {s : SkipState} (hs : Inv s) {k : Nat}
    (v : Nat) {k0 : Nat} (hne : k0 ≠ k) :
    cntK k0 (stateAfter s k v).layers = cntK k0 s.layers := by
  obtain ⟨B, rest, h⟩ := inv_shape hs
  have hbase : s.base = B := base_of h
  have hkeys : ∀ M : List Entry, (k0 ∈ keysOf (spliceLT M k v)) ↔ (k0 ∈ keysOf M) := by
    intro M
    constructor
    · intro hmem
      obtain ⟨w, hw⟩ := mem_keysOf.mp hmem
      rcases mem_spliceLT.mp hw with heq | hM
      · exact absurd (congrArg Prod.fst heq) (by simpa using hne)
      · exact mem_keysOf.mpr ⟨w, hM⟩
    · intro hmem
      obtain ⟨w, hw⟩ := mem_keysOf.mp hmem
      exact mem_keysOf.mpr ⟨w, mem_spliceLT.mpr (Or.inr hw)⟩
  have hmap : List.countP (fun L => decide (k0 ∈ keysOf L))
      (((grownTail s k).take (stepsOf s k)).map (fun L => spliceLT L k v)) =
      List.countP (fun L => decide (k0 ∈ keysOf L)) ((grownTail s k).take (stepsOf s k)) := by
    rw [List.countP_map]
    apply List.countP_congr
    intro M _
    simp [Function.comp, hkeys M]
  have hrepl : ∀ n : Nat, List.countP (fun L => decide (k0 ∈ keysOf L))
      (List.replicate n ([] : List Entry)) = 0 := by
    intro n
    apply List.countP_eq_zero.mpr
    intro M hM
    rw [List.eq_of_mem_replicate hM]
    simp [keysOf]
  have hG : grownTail s k = rest ++ List.replicate (lnAfter s k - s.layer_num) [] := by
    simp [grownTail, h]
  show cntK k0 (spliceLT s.base k v :: tailAfter s k v) = cntK k0 s.layers
  have hjoin : List.countP (fun L => decide (k0 ∈ keysOf L))
        ((grownTail s k).take (stepsOf s k)) +
      List.countP (fun L => decide (k0 ∈ keysOf L)) ((grownTail s k).drop (stepsOf s k)) =
      List.countP (fun L => decide (k0 ∈ keysOf L)) rest := by
    rw [← List.countP_append, List.take_append_drop, hG, List.countP_append, hrepl]
    omega
  simp only [cntK, tailAfter, List.countP_cons, List.countP_append, hmap, h]
  have hsplice : decide (k0 ∈ keysOf (spliceLT s.base k v)) = decide (k0 ∈ keysOf B) := by
    rw [hbase]
    exact decide_eq_decide.mpr (hkeys B)
  rw [hsplice]
  omega

theorem insert_cntK_other {s : SkipState} (hs : Inv s) {k0 : Nat}
    (hk0 : k0 ∈ keysOf s.base) (k v : Nat) :
    cntK k0 (insertImpl s k v).2.layers = cntK k0 s.layers := by
  by_cases hk : k ∈ keysOf s.base
  · rw [insertImpl_dup hs hk]
  · have hne : k0 ≠ k := fun hh => hk (hh ▸ hk0)
    rw [insertImpl_fresh hs hk]
    exact cntK_stateAfter_other hs v hne

theorem insertsFrom_inv {s t : SkipState} (hs : Inv s) (h : InsertsFrom s t) : Inv t := by
  induction h with
  | refl => exact hs
  | step t2 k v _ ih => exact insert_inv ih k v

theorem insertsFrom_mem {s t : SkipState} (hs : Inv s) {k0 v0 : Nat}
    (hmem : (k0, v0) ∈ s.base) (h : InsertsFrom s t) : (k0, v0) ∈ t.base := by
  induction h with
  | refl => exact hmem
  | step t2 k v hprev ih =>
    exact insert_preserves_base_mem (insertsFrom_inv hs hprev) ih k v

theorem insertsFrom_key {s t : SkipState} (hs : Inv s) {k0 : Nat}
    (hk0 : k0 ∈ keysOf s.base) (h : InsertsFrom s t) : k0 ∈ keysOf t.base := by
  obtain ⟨v0, hv0⟩ := mem_keysOf.mp hk0
  exact mem_keysOf.mpr ⟨v0, insertsFrom_mem hs hv0 h⟩

theorem insertsFrom_cntK {s t : SkipState} (hs : Inv s) {k0 : Nat}
    (hk0 : k0 ∈ keysOf s.base) (h : InsertsFrom s t) :
    cntK k0 t.layers = cntK k0 s.layers := by
  induction h with
  | refl => rfl
  | step t2 k v hprev ih =>
    have hinv2 := insertsFrom_inv hs hprev
    rw [insert_cntK_other hinv2 (insertsFrom_key hs hk0 hprev) k v, ih]

/-! ### Folding a sequence of insertions -/

/-- The engine obtained from a fresh construction by the `insert` calls in
`kvs`, in order. -/
def buildList (kvs : List (Nat × Nat)) : SkipState :=
  kvs.foldl (fun s kv => (insertImpl s kv.1 kv.2).2) initState

theorem stateAfter_keys {s : SkipState} (k v : Nat) :
    (keysOf (stateAfter s k v).base).Perm (k :: keysOf s.base) := by
  rw [stateAfter_base]
  have hperm := spliceLT_perm s.base k v
  have hmap := List.Perm.map Prod.fst hperm
  simpa [keysOf] using hmap

theorem foldl_insert_spec :
    ∀ (kvs : List (Nat × Nat)) (s : SkipState), Inv s →
      (keysOf s.base ++ kvs.map Prod.fst).Nodup →
      Inv (kvs.foldl (fun s kv => (insertImpl s kv.1 kv.2).2) s) ∧
      (keysOf (kvs.foldl (fun s kv => (insertImpl s kv.1 kv.2).2) s).base).Perm
        (keysOf s.base ++ kvs.map Prod.fst) ∧
      (kvs.foldl (fun s kv => (insertImpl s kv.1 kv.2).2) s).listSize =
        s.listSize + kvs.length := by
  intro kvs
  induction kvs with
  | nil =>
    intro s hs _
    exact ⟨hs, by simp, by simp⟩
  | cons kv rest ih =>
    intro s hs hnodup
    obtain ⟨k, v⟩ := kv
    simp only [List.map_cons] at hnodup
    have hkfresh : k ∉ keysOf s.base := by
      intro hkin
      obtain ⟨_, _, hdisj⟩ := List.nodup_append.mp hnodup
      exact hdisj hkin (List.mem_cons_self _ _)
    have hfresh := insertImpl_fresh hs hkfresh v
    have hperm2 : (keysOf (stateAfter s k v).base ++ rest.map Prod.fst).Perm
        (keysOf s.base ++ k :: rest.map Prod.fst) := by
      have h1 : (keysOf (stateAfter s k v).base ++ rest.map Prod.fst).Perm
          ((k :: keysOf s.base) ++ rest.map Prod.fst) :=
        List.Perm.append_right _ (stateAfter_keys k v)
      have h2 : ((k :: keysOf s.base) ++ rest.map Prod.fst).Perm
          (keysOf s.base ++ k :: rest.map Prod.fst) := by
        rw [List.cons_append]
        exact List.Perm.symm List.perm_middle
      exact List.Perm.trans h1 h2
    have hnodup2 : (keysOf (stateAfter s k v).base ++ rest.map Prod.fst).Nodup :=
      (List.Perm.nodup_iff hperm2).mpr hnodup
    have hstep := ih (stateAfter s k v) (stateAfter_inv hs hkfresh v) hnodup2
    simp only [List.foldl_cons]
    rw [show (insertImpl s (k, v).1 (k, v).2).2 = stateAfter s k v from by rw [hfresh]]
    refine ⟨hstep.1, ?_, ?_⟩
    · exact List.Perm.trans hstep.2.1
        (by
          have := hperm2
          simpa using this)
    · have hsz : (stateAfter s k v).listSize = s.listSize + 1 := rfl
      rw [hstep.2.2, hsz]
      simp only [List.length_cons]
      omega

/-! ## The claims -/

/-- Claim C3: the promotion function equals the spec's reference definition —
for every integer key and promotion count `p` it XORs the key's 8-bit groups
into one byte and returns bit `p mod 8`; in particular `flipCoin 0 0 = false`,
`flipCoin 5 0 = true`, `flipCoin 5 1 = false`; and the string variant XORs
every character of the key and applies the same bit test. -/
theorem claim_C3 :
    (∀ key p : Nat, flipCoin key p = promoteSpec key p) ∧
      flipCoin 0 0 = false ∧ flipCoin 5 0 = true ∧ flipCoin 5 1 = false ∧
      (∀ (cs : List Nat) (p : Nat), flipCoinStr cs p = promoteSpecStr cs p) :=
  ⟨flipCoin_eq_promoteSpec, by decide, by decide, by decide,
    flipCoinStr_eq_promoteSpecStr⟩

/-- Claim C9: immediately after construction `numLayers() = 2`, `size() = 0`
and `isEmpty()` holds; and every state reachable by operations (only `insert`
mutates) has `numLayers() ≥ 2`. -/
theorem claim_C9 :
    numLayersImpl initState = 2 ∧ sizeImpl initState = 0 ∧
      isEmptyImpl initState = true ∧
      ∀ s : SkipState, Reachable s → 2 ≤ numLayersImpl s := by
  refine ⟨rfl, rfl, rfl, ?_⟩
  intro s hreach
  exact (reachable_inv hreach).two_le

theorem claim_C9_witness : Reachable initState ∧ 2 ≤ numLayersImpl initState :=
  ⟨Reachable.init, claim_C9.2.2.2 initState Reachable.init⟩

/-- Claim C8: in every reachable state the topmost layer (the last in the
bottom-up layer list) holds no key at all — in particular no non-sentinel key
unless the cap is reached, as the claim states, and in fact even then,
because the promotion guard `layer_num < max_layer_num` stops promotions
before a key could remain on top.  Second conjunct: the mechanism — whenever
the promotion loop places an entry on the current topmost layer
(`layer_num - 1 = previousFlip`, i.e. `ln = pf + 2`), it continues with a
brand-new empty layer pushed above it and `layer_num` incremented, before the
insert returns. -/
theorem claim_C8 :
    (∀ s : SkipState, Reachable s → s.layers.getLast? = some []) ∧
      ∀ (k v mx fuel pf ln : Nat) (L : List Entry) (above : List (List Entry)),
        flipCoin k pf = true → ln < mx → ln = pf + 2 →
        promoLoop k v mx (fuel + 1) pf ln (L :: above) =
          (spliceLT L k v :: (promoLoop k v mx fuel (pf + 1) (ln + 1) ([] :: above)).1,
            (promoLoop k v mx fuel (pf + 1) (ln + 1) ([] :: above)).2) :=
  ⟨fun _ h => (reachable_inv h).top,
    fun _ v _ fuel _ _ L above h1 h2 h3 => promoLoop_step_top v ⟨h1, h2⟩ h3 fuel L above⟩

theorem claim_C8_witness :
    initState.layers.getLast? = some [] ∧
      promoLoop 3 5 13 (0 + 1) 0 2 ([] :: []) =
        (spliceLT [] 3 5 :: (promoLoop 3 5 13 0 1 3 ([] :: [])).1,
          (promoLoop 3 5 13 0 1 3 ([] :: [])).2) :=
  ⟨claim_C8.1 initState Reachable.init,
    claim_C8.2 3 5 13 0 0 2 [] [] (by decide) (by decide) rfl⟩

/-- Claim C10: on an empty skip list, querying `previousKey` at the
default-constructed key (`Key() = 0` for `unsigned`) signals no failure at
all and returns the default key value 0, because the boundary sentinels carry
`Key()` and the absence check compares against the right sentinel's key while
the returned node is the left sentinel. -/
theorem claim_C10 :
    isEmptyImpl initState = true ∧ previousKeyImpl initState 0 = .ok 0 := by
  decide

/-- Claim C1 (evaluation at the failing input): in the skip list holding keys
3 and 5, `previousKey(3)` (smallest key) and `nextKey(5)` (largest key) do
NOT signal the extremal failures the header documentation promises — both
return the sentinel's default key 0 as a normal result, because the
"smallest" guard `currentNode == top_left && currentNode->down == nullptr`
can never hold at the base layer, and the found-branch of `nextKey` returns
`currentNode->next->key`, which for the largest key is the right sentinel's
`Key() = 0`. -/
theorem claim_C1 :
    allKeysInOrderImpl (buildList [(3, 5), (5, 7)]) = [3, 5] ∧
      previousKeyImpl (buildList [(3, 5), (5, 7)]) 3 = .ok 0 ∧
      nextKeyImpl (buildList [(3, 5), (5, 7)]) 5 = .ok 0 ∧
      previousKeyImpl (buildList [(3, 5), (5, 7)]) 3 ≠ .error Err.NoPredecessor ∧
      nextKeyImpl (buildList [(3, 5), (5, 7)]) 5 ≠ .error Err.NoSuccessor := by
  decide

/-- Claim C5 (counterexample): the key 0 was never inserted into a freshly
constructed engine, yet `nextKey(0)` signals the "largest key" failure
(NoSuccessor), not KeyNotFound — the final position is the base left
sentinel, whose key `Key() = 0` equals the query key, so the absence check
passes and the empty-successor check fires instead. -/
theorem claim_C5_counterexample :
    allKeysInOrderImpl initState = [] ∧
      nextKeyImpl initState 0 = .error Err.NoSuccessor ∧
      nextKeyImpl initState 0 ≠ .error Err.KeyNotFound := by
  decide

/-- Claim C5 (amended): for every reachable skip list and every key `k` other
than the default-constructed key (`Key() = 0`) that is not present, each of
the six operations `height`, `find`, `nextKey`, `previousKey`,
`isSmallestKey`, `isLargestKey` signals KeyNotFound.  (At `k = 0` the
sentinel conflation can make `nextKey`/`previousKey` return normally or
signal a different failure.) -/
theorem claim_C5_amended (s : SkipState) (h : Reachable s) (k : Nat)
    (hk : k ∉ allKeysInOrderImpl s) (hk0 : k ≠ 0) :
    heightImpl s k = .error .KeyNotFound ∧
      findImpl s k = .error .KeyNotFound ∧
      nextKeyImpl s k = .error .KeyNotFound ∧
      previousKeyImpl s k = .error .KeyNotFound ∧
      isSmallestKeyImpl s k = .error .KeyNotFound ∧
      isLargestKeyImpl s k = .error .KeyNotFound := by
  have hinv := reachable_inv h
  have hk2 : k ∉ keysOf s.base := hk
  exact ⟨heightImpl_absent hinv hk2, findImpl_absent hinv hk2,
    nextKeyImpl_absent hinv hk2 hk0, previousKeyImpl_absent hinv hk2 hk0,
    isSmallestKeyImpl_absent hinv hk2, isLargestKeyImpl_absent hinv hk2⟩

theorem claim_C5_witness :
    Reachable initState ∧ (7 : Nat) ∉ allKeysInOrderImpl initState ∧ (7 : Nat) ≠ 0 ∧
      heightImpl initState 7 = .error Err.KeyNotFound ∧
      findImpl initState 7 = .error Err.KeyNotFound ∧
      nextKeyImpl initState 7 = .error Err.KeyNotFound ∧
      previousKeyImpl initState 7 = .error Err.KeyNotFound ∧
      isSmallestKeyImpl initState 7 = .error Err.KeyNotFound ∧
      isLargestKeyImpl initState 7 = .error Err.KeyNotFound := by
  have h := claim_C5_amended initState Reachable.init 7 (by decide) (by decide)
  exact ⟨Reachable.init, by decide, by decide, h.1, h.2.1, h.2.2.1, h.2.2.2.1,
    h.2.2.2.2.1, h.2.2.2.2.2⟩

/-- Claim C6: inserting a key that is already present returns false and
changes nothing — the state is unchanged, hence `size()`,
`allKeysInOrder()`, `numLayers()` and the value bound to every existing key
(including the original binding of `k`) are the same after the call. -/
theorem claim_C6 (s : SkipState) (h : Reachable s) (k : Nat)
    (hk : k ∈ allKeysInOrderImpl s) (v : Nat) :
    (insertImpl s k v).1 = false ∧ (insertImpl s k v).2 = s ∧
      sizeImpl (insertImpl s k v).2 = sizeImpl s ∧
      allKeysInOrderImpl (insertImpl s k v).2 = allKeysInOrderImpl s ∧
      numLayersImpl (insertImpl s k v).2 = numLayersImpl s ∧
      ∀ k2 : Nat, findImpl (insertImpl s k v).2 k2 = findImpl s k2 := by
  have hinv := reachable_inv h
  have heq := insertImpl_dup hinv hk v
  rw [heq]
  exact ⟨rfl, rfl, rfl, rfl, rfl, fun _ => rfl⟩

theorem claim_C6_witness :
    Reachable (buildList [(3, 5)]) ∧
      (3 : Nat) ∈ allKeysInOrderImpl (buildList [(3, 5)]) ∧
      (insertImpl (buildList [(3, 5)]) 3 99).1 = false ∧
      (insertImpl (buildList [(3, 5)]) 3 99).2 = buildList [(3, 5)] := by
  have hr : Reachable (buildList [(3, 5)]) := Reachable.step initState 3 5 Reachable.init
  have h := claim_C6 (buildList [(3, 5)]) hr 3 (by decide) 99
  exact ⟨hr, by decide, h.1, h.2.1⟩

/-- Claim C7: a key bound by a successful `insert(k, v)` keeps the value `v`:
after any further sequence of operations (only `insert` mutates, and a
re-insert of `k` is rejected), `find(k)` returns `v`; in particular after
`insert(3, 5)` on a fresh engine, `find(3) = 5`. -/
theorem claim_C7 (s : SkipState) (h : Reachable s) (k v : Nat)
    (hsucc : (insertImpl s k v).1 = true)
    (t : SkipState) (hlater : InsertsFrom (insertImpl s k v).2 t) :
    findImpl t k = .ok v := by
  have hinv := reachable_inv h
  have hfresh : k ∉ keysOf s.base := by
    intro hk
    rw [insertImpl_dup hinv hk v] at hsucc
    simp at hsucc
  have heq := insertImpl_fresh hinv hfresh v
  have hinv2 : Inv (insertImpl s k v).2 := insert_inv hinv k v
  have hmem : (k, v) ∈ (insertImpl s k v).2.base := by
    rw [heq, stateAfter_base]
    exact mem_spliceLT.mpr (Or.inl rfl)
  exact findImpl_present (insertsFrom_inv hinv2 hlater) (insertsFrom_mem hinv2 hmem hlater)

theorem claim_C7_witness :
    (insertImpl initState 3 5).1 = true ∧
      findImpl (insertImpl initState 3 5).2 3 = .ok 5 :=
  ⟨by decide, claim_C7 initState Reachable.init 3 5 (by decide) _ (InsertsFrom.refl _)⟩

/-- Claim C4: for a key `k` inserted fresh into a reachable state `s` and for
every state `t` obtained by later insertions, `height(k)` equals `1 +` the
number of promotion-loop iterations performed during `k`'s insertion —
`promoSteps` counts exactly the consecutive `true` results of
`flipCoin(k, ·)` starting at promotion count 0, truncated by the guard
`layer_num < max_layer_num` with the cap `capAfter s` that was in force
(recomputed from the new size) and `layer_num` evolving as in the loop. -/
theorem claim_C4 (s : SkipState) (h : Reachable s) (k v : Nat)
    (hfresh : k ∉ allKeysInOrderImpl s)
    (t : SkipState) (hlater : InsertsFrom (insertImpl s k v).2 t) :
    heightImpl t k = .ok (1 + promoSteps k (capAfter s) (capAfter s) 0 s.layer_num) := by
  have hinv := reachable_inv h
  have hfresh2 : k ∉ keysOf s.base := hfresh
  have heq := insertImpl_fresh hinv hfresh2 v
  have hinv2 : Inv (insertImpl s k v).2 := insert_inv hinv k v
  have hkmem : k ∈ keysOf (insertImpl s k v).2.base := by
    rw [heq, stateAfter_base]
    exact mem_keysOf.mpr ⟨v, mem_spliceLT.mpr (Or.inl rfl)⟩
  have hinvt := insertsFrom_inv hinv2 hlater
  have hkt : k ∈ keysOf t.base := insertsFrom_key hinv2 hkmem hlater
  have hcnt_t : cntK k t.layers = cntK k (insertImpl s k v).2.layers :=
    insertsFrom_cntK hinv2 hkmem hlater
  have hcnt : cntK k (insertImpl s k v).2.layers = 1 + stepsOf s k := by
    rw [heq]
    exact cntK_stateAfter_self hinv hfresh2 v
  rw [heightImpl_present hinvt hkt, hcnt_t, hcnt]
  rfl

theorem claim_C4_witness :
    (3 : Nat) ∉ allKeysInOrderImpl initState ∧
      heightImpl (insertImpl initState 3 5).2 3 =
        .ok (1 + promoSteps 3 (capAfter initState) (capAfter initState) 0
          initState.layer_num) :=
  ⟨by decide, claim_C4 initState Reachable.init 3 5 (by decide) _ (InsertsFrom.refl _)⟩

/-- Claim C2: for every sequence of `insert(k, v)` calls with pairwise
distinct keys starting from a fresh engine, `size()` equals the number of
inserts (all of them succeed, so this is the number of successful inserts)
and `allKeysInOrder()` is exactly those keys sorted strictly increasingly
(stated as: sorted, and a permutation of the inserted keys). -/
theorem claim_C2 (kvs : List (Nat × Nat)) (hdistinct : (kvs.map Prod.fst).Nodup) :
    sizeImpl (buildList kvs) = kvs.length ∧
      (allKeysInOrderImpl (buildList kvs)).Pairwise (· < ·) ∧
      (allKeysInOrderImpl (buildList kvs)).Perm (kvs.map Prod.fst) := by
  have h := foldl_insert_spec kvs initState inv_init (by simpa using hdistinct)
  refine ⟨?_, ?_, ?_⟩
  · have hsz := h.2.2
    simpa [sizeImpl, buildList, initState] using hsz
  · have hsorted : SortedK (buildList kvs).base := base_sorted h.1
    simp only [allKeysInOrderImpl, keysOf]
    exact List.pairwise_map.mpr hsorted
  · have hp := h.2.1
    simpa [allKeysInOrderImpl, buildList] using hp

theorem claim_C2_witness :
    ([(3, 5), (1, 2), (2, 9)].map Prod.fst).Nodup ∧
      sizeImpl (buildList [(3, 5), (1, 2), (2, 9)]) = 3 ∧
      allKeysInOrderImpl (buildList [(3, 5), (1, 2), (2, 9)]) = [1, 2, 3] :=
  ⟨by decide, (claim_C2 [(3, 5), (1, 2), (2, 9)] (by decide)).1, by decide⟩

end SkipListModel
